/-
Verification of the Nagini runtime core (src/nagini/compiler/c/builtin.h,
pool.h) against its natural-language specification.

The C sources are shallowly embedded: machine integers become `Int`/`Nat`
with explicit two's-complement wrapping where overflow matters, heap
pointers become identities (`Nat`), the open-addressed Robin Hood object
dictionary (`Dict` in builtin.h) becomes a record whose entry buffer is a
function table indexed by `Nat`, and the unbounded C loops become
fuel-indexed recursions returning `Option` (`none` = fuel exhausted; the
development proves the fuel bounds suffice for every reachable dictionary).
-/
import Mathlib

set_option maxHeartbeats 1000000

namespace Nagini

/-! ## Two's-complement helpers (int64_t / int32_t arithmetic) -/

/-- Wrap an integer into the signed 64-bit range, as storing into an
`int64_t` does. -/
def wrap64 (x : Int) : Int := (x + 2 ^ 63) % 2 ^ 64 - 2 ^ 63

/-- Wrap an integer into the signed 32-bit range (for the `int32_t`
reference counter). -/
def wrap32 (x : Int) : Int := (x + 2 ^ 31) % 2 ^ 32 - 2 ^ 31

/-- The unsigned 64-bit pattern of an `int64_t` value, as the C cast
`(size_t)h` produces it. -/
def usize (x : Int) : Nat := (x % 2 ^ 64).toNat

/-- Bitwise xor of two `int64_t` values (used by `hash_float`). -/
def xor64 (a b : Int) : Int := wrap64 (Int.ofNat (Nat.xor (usize a) (usize b)))

/-! ## IEEE-754 doubles, as far as the dictionary claims need them

`FloatObject.__value__` is a C `double`.  The embedding keeps the
distinctions the runtime code can observe through `==` and `hash_float`:
NaN (one representative pattern), the two signed zeros, the two
infinities, and nonzero finite values (represented by their exact rational
value; `fin 0` is unused junk since the zeros have their own
constructors). -/
inductive NDouble where
  | nan
  | posZero
  | negZero
  | posInf
  | negInf
  | fin (q : ℚ)
  deriving DecidableEq, Repr

/-- IEEE-754 `==` on doubles: NaN compares unequal to everything
(including itself), `+0.0 == -0.0`, and finite values compare by value.
This is the comparison `f1->__value__ == f2->__value__` in
`ObjectsEqual`. -/
def ieeeEq : NDouble → NDouble → Bool
  | .posZero, .posZero => true
  | .posZero, .negZero => true
  | .negZero, .posZero => true
  | .negZero, .negZero => true
  | .posInf, .posInf => true
  | .negInf, .negInf => true
  | .fin a, .fin b => a == b
  | _, _ => false

def PY_HASH_INF : Int := 0x345678

/-- `hash_float` (builtin.h:614-646): zeros hash to 0, infinities to
`±PY_HASH_INF` (NaN falls into the non-finite branch where `v > 0` is
false, hence `-PY_HASH_INF`), integer-valued doubles hash as their integer
(with the `-1 → -2` special case), and other finite values decompose into
a 53-bit mantissa and an exponent combined by xor. -/
def hashFloat : NDouble → Int
  | .nan => -PY_HASH_INF
  | .posZero => 0
  | .negZero => 0
  | .posInf => PY_HASH_INF
  | .negInf => -PY_HASH_INF
  | .fin q =>
    if q.den = 1 then
      if q.num = -1 then -2 else wrap64 q.num
    else
      let e : Int := Int.log 2 |q| + 1
      let mantissa : Int := Int.floor (|q| * (2 : ℚ) ^ (53 - e))
      let mantissa := if q < 0 then -mantissa else mantissa
      let h := xor64 mantissa e
      if h = -1 then -2 else h

/-! ## Objects used as dictionary keys and values

An `Object*` is embedded as an identity (`id`, the address) plus the
payload the dictionary code can read.  `int` carries the stored `int64_t`
value, `float` the stored double, `str` its cached SipHash (string keys
are compared by cached hash only), and `other` stands for every remaining
type tag, which `ObjectsEqual` compares by pointer identity and whose
default `hash` branch is the address.  (Keys whose `hash` differs from
the address — bytes, tuples, instances with a `__hash__` member — are not
modelled; the dictionary claims depend only on equal keys hashing
equally, which holds for every per-object hash.) -/
inductive ObjData where
  | int (v : Int)
  | float (d : NDouble)
  | str (h : Int)
  | other
  deriving DecidableEq, Repr

structure Obj where
  id : Nat
  data : ObjData
  deriving DecidableEq, Repr

/-- `ObjectsEqual` (builtin.h:584-612): equal type tags required, then
ints by value, floats by IEEE `==`, strings by cached hash only,
everything else by pointer identity. -/
def ObjectsEqual (k1 k2 : Obj) : Bool :=
  match k1.data, k2.data with
  | .int a, .int b => a == b
  | .float a, .float b => ieeeEq a b
  | .str h1, .str h2 => h1 == h2
  | .other, .other => k1.id == k2.id
  | _, _ => false

/-- `ObjectsEqual` with a possibly-NULL first argument (a dictionary
slot's key pointer): `if (!k1 || !k2) return false`. -/
def ObjectsEqualOpt (k1 : Option Obj) (k2 : Obj) : Bool :=
  match k1 with
  | none => false
  | some k1 => ObjectsEqual k1 k2

/-- `hash` (builtin.h:1931-1982) restricted to the modelled key universe:
ints hash to their value with `-1 ↦ -2`, floats through `hash_float`,
strings to their cached hash, and the default branch to the address. -/
def hashObj (o : Obj) : Int :=
  match o.data with
  | .int v => if v = -1 then -2 else v
  | .float d => hashFloat d
  | .str h => h
  | .other => Int.ofNat o.id

/-! ## The object dictionary (builtin.h:2119-2254)

`dict_entry_t` is `{key, value, hash, psl}`; `psl = 0` means empty.  The
entry buffer is embedded as a total function `Nat → Entry`; the
algorithms only ever touch indices below `capacity` because every index
is masked with `mask = capacity - 1`. -/

structure Entry where
  key : Option Obj
  value : Option Obj
  hash : Int
  psl : Nat
  deriving Repr

/-- A zeroed slot, as `alloc(..., zeroed := true)` produces it. -/
def emptyEntry : Entry := ⟨none, none, 0, 0⟩

structure NDict where
  entries : Nat → Entry
  capacity : Nat
  count : Nat
  mask : Nat
  threshold : Nat

def DICT_INITIAL_CAPACITY : Nat := 2
def DICT_LOAD_FACTOR : Nat := 85

/-- `alloc_dict` (builtin.h:1985-2008): capacity 2, zeroed entries,
`mask = capacity - 1`, `threshold = capacity * 85 / 100`. -/
def allocDict : NDict :=
  { entries := fun _ => emptyEntry
    capacity := DICT_INITIAL_CAPACITY
    count := 0
    mask := DICT_INITIAL_CAPACITY - 1
    threshold := DICT_INITIAL_CAPACITY * DICT_LOAD_FACTOR / 100 }

/-- The probe loop of `dict_set` (builtin.h:2135-2163).  The first
component of the result is the new entry buffer, the second is `true`
when a fresh slot was filled (`count` must then be incremented).  `fuel`
bounds the number of iterations; `none` means it ran out (shown
impossible for reachable dictionaries). -/
def setLoop (mask : Nat) (h : Int) (key value : Obj) :
    Nat → (Nat → Entry) → Entry → Nat → Option ((Nat → Entry) × Bool)
  | 0, _, _, _ => none
  | fuel + 1, E, e, idx =>
    let curr := E idx
    if curr.psl = 0 then
      some (Function.update E idx e, true)
    else if curr.hash == h && ObjectsEqualOpt curr.key key then
      some (Function.update E idx { curr with value := some value }, false)
    else if e.psl > curr.psl then
      setLoop mask h key value fuel (Function.update E idx e)
        { curr with psl := curr.psl + 1 } ((idx + 1) &&& mask)
    else
      setLoop mask h key value fuel E
        { e with psl := e.psl + 1 } ((idx + 1) &&& mask)

/-- The reinsertion loop of `_dict_resize` (builtin.h:2037-2052): like the
insert loop but with no equality check and no update case. -/
def reinsertLoop (mask : Nat) :
    Nat → (Nat → Entry) → Entry → Nat → Option (Nat → Entry)
  | 0, _, _, _ => none
  | fuel + 1, E, e, idx =>
    let curr := E idx
    if curr.psl = 0 then
      some (Function.update E idx e)
    else if e.psl > curr.psl then
      reinsertLoop mask fuel (Function.update E idx e)
        { curr with psl := curr.psl + 1 } ((idx + 1) &&& mask)
    else
      reinsertLoop mask fuel E
        { e with psl := e.psl + 1 } ((idx + 1) &&& mask)

/-- The `for` loop of `_dict_resize` (builtin.h:2030-2054): every
occupied old slot is reinserted with its psl reset to 1, counting the
insertions (`d->count` was reset to 0). -/
def resizeFold (mask : Nat) (old : Nat → Entry) :
    List Nat → (Nat → Entry) → Nat → Option ((Nat → Entry) × Nat)
  | [], E, cnt => some (E, cnt)
  | i :: rest, E, cnt =>
    let oe := old i
    if oe.psl > 0 then
      match reinsertLoop mask (mask + 2) E { oe with psl := 1 }
          (usize oe.hash &&& mask) with
      | none => none
      | some E' => resizeFold mask old rest E' (cnt + 1)
    else
      resizeFold mask old rest E cnt

/-- `_dict_resize` (builtin.h:2012-2058): fresh zeroed buffer of the new
capacity, recomputed mask/threshold, count rebuilt by reinsertion. -/
def dictResize (d : NDict) (newCapacity : Nat) : Option NDict :=
  let mask' := newCapacity - 1
  match resizeFold mask' d.entries (List.range d.capacity)
      (fun _ => emptyEntry) 0 with
  | none => none
  | some (E, cnt) =>
    some { entries := E
           capacity := newCapacity
           count := cnt
           mask := mask'
           threshold := newCapacity * DICT_LOAD_FACTOR / 100 }

/-- `dict_set` (builtin.h:2119-2164): resize when `count ≥ threshold`,
then Robin Hood insert/update starting from `(size_t)h & mask`. -/
def dictSet (d : NDict) (k v : Obj) : Option NDict :=
  match (if d.count ≥ d.threshold then dictResize d (d.capacity * 2) else some d) with
  | none => none
  | some d1 =>
    let h := hashObj k
    match setLoop d1.mask h k v (d1.capacity + 1) d1.entries
        ⟨some k, some v, h, 1⟩ (usize h &&& d1.mask) with
    | none => none
    | some (E, inserted) =>
      some { d1 with
             entries := E
             count := if inserted then d1.count + 1 else d1.count }

/-- Total wrapper used to chain concrete operation sequences; for
reachable dictionaries `dictSet` never returns `none`. -/
def dictSetD (d : NDict) (k v : Obj) : NDict := (dictSet d k v).getD d

/-- The probe loop of `dict_get` (builtin.h:2175-2188): empty slot or a
resident poorer than the probe distance means absent; a cached-hash match
plus `ObjectsEqual` returns the stored value (a borrowed reference). -/
def getLoop (mask : Nat) (h : Int) (key : Obj) :
    Nat → (Nat → Entry) → Nat → Nat → Option (Option Obj)
  | 0, _, _, _ => none
  | fuel + 1, E, idx, psl =>
    let curr := E idx
    if curr.psl = 0 then some none
    else if curr.hash == h && ObjectsEqualOpt curr.key key then
      some curr.value
    else if curr.psl < psl then some none
    else getLoop mask h key fuel E ((idx + 1) &&& mask) (psl + 1)

/-- `dict_get` (builtin.h:2166-2189).  The outer `Option` is the fuel
bound, the inner one is the C function's possibly-NULL result. -/
def dictGetQ (d : NDict) (k : Obj) : Option (Option Obj) :=
  let h := hashObj k
  getLoop d.mask h k (d.capacity + 1) d.entries (usize h &&& d.mask) 1

/-- Total wrapper for `dict_get`; for reachable dictionaries the fuel
never runs out. -/
def dict_get (d : NDict) (k : Obj) : Option Obj := (dictGetQ d k).getD none

/-- The backward-shift loop of `dict_del` (builtin.h:2207-2227): walk
forward while the next slot has `psl > 1`, moving each such entry one
slot back with its psl decremented; finally clear the current slot
(psl 0, key and value NULL — the stale hash is left in place, exactly as
in the C code). -/
def delShift (mask : Nat) : Nat → (Nat → Entry) → Nat → Option (Nat → Entry)
  | 0, _, _ => none
  | fuel + 1, E, idx =>
    let nextIdx := (idx + 1) &&& mask
    let next := E nextIdx
    if next.psl ≤ 1 then
      some (Function.update E idx { E idx with psl := 0, key := none, value := none })
    else
      delShift mask fuel (Function.update E idx { next with psl := next.psl - 1 }) nextIdx

/-- The search loop of `dict_del` (builtin.h:2200-2233); `some none`
means the key was absent (`return false`). -/
def delFind (mask : Nat) (h : Int) (key : Obj) :
    Nat → (Nat → Entry) → Nat → Nat → Option (Option (Nat → Entry))
  | 0, _, _, _ => none
  | fuel + 1, E, idx, psl =>
    let curr := E idx
    if curr.psl = 0 || psl > curr.psl then some none
    else if curr.hash == h && ObjectsEqualOpt curr.key key then
      match delShift mask (mask + 2) E idx with
      | none => none
      | some E' => some (some E')
    else delFind mask h key fuel E ((idx + 1) &&& mask) (psl + 1)

/-- `dict_del` (builtin.h:2191-2234).  Result: the dictionary after the
call paired with the C function's boolean result. -/
def dictDel (d : NDict) (k : Obj) : Option (NDict × Bool) :=
  let h := hashObj k
  match delFind d.mask h k (d.capacity + 1) d.entries (usize h &&& d.mask) 1 with
  | none => none
  | some none => some (d, false)
  | some (some E') => some ({ d with entries := E', count := d.count - 1 }, true)

/-- Dictionary states reachable through the runtime's own operations:
`alloc_dict`, `dict_set`, `dict_del`, and `_dict_resize` (which `dict_set`
invokes with doubled capacity). -/
inductive Reachable : NDict → Prop where
  | alloc : Reachable allocDict
  | set {d d' : NDict} {k v : Obj} : Reachable d → dictSet d k v = some d' → Reachable d'
  | del {d d' : NDict} {k : Obj} {b : Bool} :
      Reachable d → dictDel d k = some (d', b) → Reachable d'
  | resize {d d' : NDict} :
      Reachable d → dictResize d (d.capacity * 2) = some d' → Reachable d'

/-! ## Spec-side definitions for the dictionary claims

These two definitions follow the words of the specification's claims, not
the source; they exist to be compared with the source-derived behaviour. -/

/-- The key-equality rule as claim C1 words it: same type tag, then ints
by value, floats by bit-equal double, strings by cached hash only, others
by pointer identity.  (The source's `ObjectsEqual` differs on floats: it
uses IEEE `==`.) -/
def specKeyEqual (k1 k2 : Obj) : Bool :=
  match k1.data, k2.data with
  | .int a, .int b => a == b
  | .float a, .float b => a == b
  | .str h1, .str h2 => h1 == h2
  | .other, .other => k1.id == k2.id
  | _, _ => false

/-- One probe step stops, in the words of claim C2: a match, an empty
slot, or a slot with PSL strictly smaller than the probe distance
(`t` probes already taken, so distance `t + 1` at this slot). -/
def probeStops (E : Nat → Entry) (k : Obj) (idx t : Nat) : Bool :=
  (E idx).psl == 0 ||
    ((E idx).hash == hashObj k && ObjectsEqualOpt (E idx).key k) ||
    decide ((E idx).psl < t + 1)

/-- The PSL values encountered probing forward from the key's home index
`hash & mask`, up to (excluding) the first stopping slot. -/
def probePSLs (E : Nat → Entry) (mask : Nat) (k : Obj) :
    Nat → Nat → List Nat
  | 0, _ => []
  | fuel + 1, t =>
    let idx := (usize (hashObj k) + t) &&& mask
    if probeStops E k idx t then []
    else (E idx).psl :: probePSLs E mask k fuel (t + 1)

/-- A list of naturals is non-decreasing. -/
def nonDecr : List Nat → Bool
  | [] => true
  | [_] => true
  | a :: b :: rest => decide (a ≤ b) && nonDecr (b :: rest)

/-- Claim C2's Robin Hood gloss for one key: the PSLs encountered while
probing for `k` are non-decreasing until the probe stops. -/
def specProbeNonDecr (d : NDict) (k : Obj) : Bool :=
  nonDecr (probePSLs d.entries d.mask k (d.mask + 1) 0)

/-! ## Integer floor division and modulo (builtin.h:923-1023)

C's `/` and `%` on `int64_t` truncate toward zero (`Int.tdiv` /
`Int.tmod`); `NgFloorDiv` and `NgMod` adjust the truncated results to
floor semantics.  `none` models the `ZeroDivisionError` exit. -/

/-- `NgFloorDiv` (builtin.h:923-971), int/int branch. -/
def NgFloorDiv (a b : Int) : Option Int :=
  if b = 0 then none
  else
    some (if a.tmod b ≠ 0 ∧ ¬((a < 0) ↔ (b < 0)) then a.tdiv b - 1
          else a.tdiv b)

/-- `NgMod` (builtin.h:973-1023), int/int branch. -/
def NgMod (a b : Int) : Option Int :=
  if b = 0 then none
  else
    let r := a.tmod b
    some (if r ≠ 0 ∧ ¬((b < 0) ↔ (r < 0)) then r + b else r)

/-! ## Unicode strings (builtin.h:118-135, 1720-1773, 2330-2409)

Byte strings are lists of naturals below 256, code points plain
naturals. -/

/-- `utf8_decode` (builtin.h:118-135): one code point from the head of a
byte sequence, with the number of bytes consumed.  Unrecognized lead
bytes keep the C struct initializer's `{0, 1}`. -/
def utf8_decode (s : List Nat) : Nat × Nat :=
  let c := s.getD 0 0
  if c ≤ 0x7F then (c, 1)
  else if c &&& 0xE0 = 0xC0 then
    (((c &&& 0x1F) <<< 6) ||| (s.getD 1 0 &&& 0x3F), 2)
  else if c &&& 0xF0 = 0xE0 then
    (((c &&& 0x0F) <<< 12) ||| ((s.getD 1 0 &&& 0x3F) <<< 6) |||
      (s.getD 2 0 &&& 0x3F), 3)
  else if c &&& 0xF8 = 0xF0 then
    (((c &&& 0x07) <<< 18) ||| ((s.getD 1 0 &&& 0x3F) <<< 12) |||
      ((s.getD 2 0 &&& 0x3F) <<< 6) ||| (s.getD 3 0 &&& 0x3F), 4)
  else (0, 1)

/-- The first decoding pass of `alloc_str` (`while (i < len)`): decode a
code point, advance by the consumed bytes.  Fueled by the byte count
(each step consumes at least one byte). -/
def utf8DecodeAll : Nat → List Nat → List Nat
  | 0, _ => []
  | _, [] => []
  | fuel + 1, l =>
    let r := utf8_decode l
    r.1 :: utf8DecodeAll fuel (l.drop r.2)

/-- `utf8_encode` (builtin.h:1720-1740): one code point to UTF-8 bytes. -/
def utf8_encode (cp : Nat) : List Nat :=
  if cp ≤ 0x7F then [cp]
  else if cp ≤ 0x7FF then
    [0xC0 ||| (cp >>> 6), 0x80 ||| (cp &&& 0x3F)]
  else if cp ≤ 0xFFFF then
    [0xE0 ||| (cp >>> 12), 0x80 ||| ((cp >>> 6) &&& 0x3F),
     0x80 ||| (cp &&& 0x3F)]
  else
    [0xF0 ||| (cp >>> 18), 0x80 ||| ((cp >>> 12) &&& 0x3F),
     0x80 ||| ((cp >>> 6) &&& 0x3F), 0x80 ||| (cp &&& 0x3F)]

/-- The observable fields of a `StringObject`: storage kind (0/1/2 for
1/2/4-byte code units), the ASCII flag (`__flags__.boolean`), the code
point count (`size`), and the stored code units. -/
structure StrObj where
  kind : Nat
  is_ascii : Bool
  size : Nat
  data : List Nat
  deriving DecidableEq, Repr

/-- `alloc_str` (builtin.h:2330-2409): first pass decodes and finds the
maximal code point and the ASCII flag; the kind is 0 for `max ≤ 0xFF`,
1 for `max ≤ 0xFFFF`, else 2; the second pass stores the code points
truncated to the kind's width (`(char)` / `(uint16_t)` casts). -/
def alloc_str (data : List Nat) : StrObj :=
  let cps := utf8DecodeAll data.length data
  let max_cp := cps.foldl max 0
  let kind := if max_cp ≤ 0xFF then 0 else if max_cp ≤ 0xFFFF then 1 else 2
  { kind := kind
    is_ascii := cps.all (fun c => decide (c ≤ 0x7F))
    size := cps.length
    data := cps.map (fun c =>
      if kind = 0 then c % 256 else if kind = 1 then c % 65536 else c) }

/-- `string_cstr_tmp` (builtin.h:1742-1773): the ASCII fast path and the
kind-0 loop both emit the stored 1-byte code units raw (`*p++ =
u->data[i]`); kinds 1 and 2 re-encode each code unit as UTF-8. -/
def string_cstr_tmp (s : StrObj) : List Nat :=
  if s.is_ascii && s.kind == 0 then s.data
  else if s.kind == 0 then s.data
  else (s.data.map utf8_encode).join

/-! ## Reference counting (builtin.h:2586-2713)

A heap maps object addresses to their `int32_t` refcount; `freed`
records teardown events (the `refcount == 0` branch of `DECREF`, whose
type-directed releases are summarized as the event). -/

structure Heap where
  rc : Nat → Int
  freed : List Nat

/-- `INCREF` (builtin.h:2586-2592): non-null pointers get their refcount
incremented (int32 wrap-around explicit); the argument is returned. -/
def INCREF (h : Heap) (o : Option Nat) : Heap × Option Nat :=
  match o with
  | none => (h, none)
  | some i =>
    ({ h with rc := Function.update h.rc i (wrap32 (h.rc i + 1)) }, some i)

/-- `DECREF` (builtin.h:2595-2713): non-null pointers get their refcount
decremented; at zero the object is torn down (recorded in `freed`) and
NULL is returned, otherwise the pointer survives.  (For a NULL argument
the C function's return value is unspecified — it falls off the end —
but the heap is untouched; the model returns `none`.) -/
def DECREF (h : Heap) (o : Option Nat) : Heap × Option Nat :=
  match o with
  | none => (h, none)
  | some i =>
    let r := wrap32 (h.rc i - 1)
    let h' : Heap := { h with rc := Function.update h.rc i r }
    if r = 0 then ({ h' with freed := i :: h'.freed }, none)
    else (h', some i)

/-- `NgGetMember` (builtin.h:650-657): look the member up in the
instance's attribute dictionary and return it through `INCREF`. -/
def NgGetMember (h : Heap) (dict : Option NDict) (m : Obj) :
    Heap × Option Obj :=
  match dict with
  | none => (h, none)
  | some d =>
    let v := dict_get d m
    ((INCREF h (v.map Obj.id)).1, v)

/-! ## List / tuple indexing (builtin.h:672-757)

Only the list and tuple arms of the `switch` are modelled; the index is
the `int64_t` that `NgCastToInt` extracts from an int-tagged object.
`Except` errors model the diagnostic-and-`exit(1)` failures. -/

inductive NgErr where
  | indexError
  | typeError
  deriving DecidableEq, Repr

inductive Container where
  | list (items : List Obj)
  | tuple (items : List Obj)
  deriving DecidableEq, Repr

/-- `NgGetItem` (builtin.h:672-715), list and tuple arms: one `idx +=
len` normalization for negative indices, bounds check, element return. -/
def NgGetItem (c : Container) (index : Int) : Except NgErr Obj :=
  match c with
  | .list items =>
    let idx := if index < 0 then index + items.length else index
    if idx < 0 ∨ (items.length : Int) ≤ idx then .error .indexError
    else .ok (items.getD idx.toNat ⟨0, .other⟩)
  | .tuple items =>
    let idx := if index < 0 then index + items.length else index
    if idx < 0 ∨ (items.length : Int) ≤ idx then .error .indexError
    else .ok (items.getD idx.toNat ⟨0, .other⟩)

/-- `NgSetItem` (builtin.h:717-757): lists normalize, bounds-check and
replace; tuples always fail with a TypeError. -/
def NgSetItem (c : Container) (index : Int) (v : Obj) :
    Except NgErr Container :=
  match c with
  | .list items =>
    let idx := if index < 0 then index + items.length else index
    if idx < 0 ∨ (items.length : Int) ≤ idx then .error .indexError
    else .ok (.list (items.set idx.toNat v))
  | .tuple _ => .error .typeError

/-- Claim C9's normalization rule, spec-side: a negative index gets the
length added exactly once. -/
def specNormIdx (index : Int) (len : Nat) : Int :=
  if index < 0 then index + len else index

/-! ## Allocation provenance (builtin.h:1345, 1837-1873; pool.h)

`alloc` draws a block from the first size-classed dynamic pool whose
payload size fits, else from `malloc` (`is_manual = true`); a block's
provenance names the allocator that must release it. -/

/-- `block_sizes` (builtin.h:1345): the 64 pool payload sizes. -/
def block_sizes : List Nat :=
  [8, 16, 24, 32, 40, 48, 56, 64, 72, 80, 88, 96, 104, 112, 120, 128,
   144, 160, 176, 192, 208, 224, 240, 256, 272, 288, 304, 320, 336, 352,
   368, 384, 416, 448, 480, 512, 576, 640, 704, 768, 832, 896, 960, 1024,
   1152, 1280, 1408, 1536, 1664, 1792, 1920, 2048, 4096, 8192, 16384,
   32768, 65536, 131072, 262144, 524288, 1048576, 2097152, 4194304,
   8388608]

inductive Allocator where
  | pool (id : Nat)
  | system
  deriving DecidableEq, Repr

/-- `alloc` (builtin.h:1837-1862): the first pool (of 64) whose
`block_payload_size` fits the request, else `malloc`. -/
def allocRoute (size : Nat) : Allocator :=
  match (List.range 64).find? (fun i => decide (size ≤ block_sizes.getD i 0)) with
  | some i => .pool i
  | none => .system

/-- `sizeof(Object*)` on the 64-bit targets the runtime supports. -/
def sizeof_ObjectPtr : Nat := 8

/-- `list_init` (builtin.h:306-317): the items buffer is
`alloc(sizeof(Object*) * capacity)` with capacity defaulted to 4; this
names the allocator that produced the buffer.  (The C code leaves the
returned `is_manual`/`pool_id` in dead locals: the provenance is
discarded.) -/
def list_init_itemsProducer (initial_capacity : Nat) : Allocator :=
  allocRoute (sizeof_ObjectPtr *
    (if initial_capacity > 0 then initial_capacity else 4))

/-- The `OBJ_TYPE_LIST` arm of `DECREF` (builtin.h:2668-2680) releases
the items buffer with `free(list->items)`: the system allocator, whatever
the buffer's provenance was. -/
def DECREF_list_itemsReleaser (itemsProducer : Allocator) : Allocator :=
  Allocator.system

/-- The growth path of `list_append` (builtin.h:322-341) releases the old
items buffer through `del(..., list->base.__allocation__...)`: it routes
by the provenance stored in the list shell's header, not the buffer's. -/
def list_append_oldItemsReleaser (shellProvenance itemsProducer : Allocator) :
    Allocator :=
  shellProvenance

/-! ## Basic facts about `ObjectsEqual` and `hashObj`

The dictionary's key equality is a partial equivalence: symmetric and
transitive, but not reflexive on NaN-valued float keys. -/

theorem ieeeEq_symm (a b : NDouble) : ieeeEq a b = ieeeEq b a := by
  cases a <;> cases b <;> simp [ieeeEq, BEq.comm]

theorem ieeeEq_trans {a b c : NDouble} (h1 : ieeeEq a b = true)
    (h2 : ieeeEq b c = true) : ieeeEq a c = true := by
  cases a <;> cases b <;> cases c <;> simp_all [ieeeEq]

theorem ObjectsEqual_symm (a b : Obj) : ObjectsEqual a b = ObjectsEqual b a := by
  rcases a with ⟨ia, da⟩; rcases b with ⟨ib, db⟩
  cases da <;> cases db <;> simp [ObjectsEqual, ieeeEq_symm, BEq.comm]

theorem ObjectsEqual_trans {a b c : Obj} (h1 : ObjectsEqual a b = true)
    (h2 : ObjectsEqual b c = true) : ObjectsEqual a c = true := by
  rcases a with ⟨ia, da⟩; rcases b with ⟨ib, db⟩; rcases c with ⟨ic, dc⟩
  cases da <;> cases db <;> cases dc <;>
    simp_all [ObjectsEqual] <;> exact ieeeEq_trans h1 h2

/-- Keys that `ObjectsEqual` identifies have the same `hash`: equal ints
share the `-1 ↦ -2` adjustment, IEEE-equal floats land in the same
`hash_float` branch, equal-by-cached-hash strings hash to that cached
value, and pointer-identical objects share the default branch. -/
theorem hashObj_congr {a b : Obj} (h : ObjectsEqual a b = true) :
    hashObj a = hashObj b := by
  rcases a with ⟨ia, da⟩; rcases b with ⟨ib, db⟩
  cases da <;> cases db <;> simp_all [ObjectsEqual, hashObj]
  next x y => cases x <;> cases y <;> simp_all [ieeeEq, hashFloat]

/-! ## Position arithmetic on the circular table -/

/-- Number of forward probe steps from slot `a` to slot `b` in a table of
`cap` slots. -/
def dist (cap a b : Nat) : Nat := (cap + b - a) % cap

theorem dist_self (cap a : Nat) : dist cap a a = 0 := by
  simp [dist, Nat.add_sub_cancel]

theorem dist_lt {cap : Nat} (hcap : 0 < cap) (a b : Nat) : dist cap a b < cap :=
  Nat.mod_lt _ hcap

theorem dist_formula {cap a b : Nat} (ha : a < cap) (hb : b < cap) :
    dist cap a b = if a ≤ b then b - a else cap + b - a := by
  unfold dist
  split
  · next hab =>
    rw [show cap + b - a = (b - a) + cap by omega, Nat.add_mod_right,
      Nat.mod_eq_of_lt (by omega)]
  · next hab =>
    rw [Nat.mod_eq_of_lt (by omega)]

theorem dist_eq_zero_iff {cap a b : Nat} (ha : a < cap) (hb : b < cap) :
    dist cap a b = 0 ↔ a = b := by
  rw [dist_formula ha hb]
  split <;> omega

theorem dist_succ {cap a b : Nat} (ha : a < cap) (hb : b < cap) (hne : a ≠ b) :
    dist cap ((a + 1) % cap) b + 1 = dist cap a b := by
  rcases Nat.lt_or_ge (a + 1) cap with h1 | h1
  · rw [Nat.mod_eq_of_lt h1, dist_formula h1 hb, dist_formula ha hb]
    split <;> split <;> omega
  · have haeq : a + 1 = cap := by omega
    rw [haeq, Nat.mod_self, dist_formula (by omega) hb, dist_formula ha hb]
    split <;> split <;> omega

/-- Distinct probe distances within one window of the table land on
distinct slots. -/
theorem probe_pos_inj {cap b x y : Nat} (hxy : x ≤ y)
    (hwin : y - x < cap) (h : (b + x) % cap = (b + y) % cap) : x = y := by
  have hmod : Nat.ModEq cap (b + x) (b + y) := h
  have hdvd : cap ∣ (b + y) - (b + x) := (Nat.modEq_iff_dvd' (by omega)).mp hmod
  rw [show b + y - (b + x) = y - x by omega] at hdvd
  have := Nat.eq_zero_of_dvd_of_lt hdvd hwin
  omega

/-! ## The structural invariant of the Robin Hood table -/

/-- Number of occupied slots. -/
def occCount (E : Nat → Entry) (cap : Nat) : Nat :=
  ((Finset.range cap).filter (fun i => (E i).psl ≠ 0)).card

/-- Structural well-formedness of an entry buffer of `cap` slots:
empty slots carry no key or value; occupied slots carry a key, a value,
and that key's `hash`; an occupied slot sits `psl - 1` steps after its
hash's home slot; psl values of adjacent slots rise by at most one;
psl never exceeds the capacity; and no two distinct occupied slots hold
keys that the dictionary's equality identifies. -/
structure Struct (E : Nat → Entry) (cap : Nat) : Prop where
  empty_none : ∀ i < cap, (E i).psl = 0 → (E i).key = none ∧ (E i).value = none
  occ_kv : ∀ i < cap, (E i).psl ≠ 0 →
    ∃ k v, (E i).key = some k ∧ (E i).value = some v ∧ (E i).hash = hashObj k
  pos : ∀ i < cap, (E i).psl ≠ 0 →
    i = (usize (E i).hash % cap + ((E i).psl - 1)) % cap
  adj : ∀ i < cap, (E ((i + 1) % cap)).psl ≤ (E i).psl + 1
  psl_le : ∀ i < cap, (E i).psl ≤ cap
  uniq : ∀ i < cap, ∀ j < cap, i ≠ j → (E i).psl ≠ 0 → (E j).psl ≠ 0 →
    ∀ ki kj, (E i).key = some ki → (E j).key = some kj →
    (E i).hash = (E j).hash → ObjectsEqual ki kj = false

/-- The invariant every reachable dictionary satisfies. -/
structure Inv (d : NDict) : Prop where
  pow2 : ∃ K, 1 ≤ K ∧ d.capacity = 2 ^ K
  mask_eq : d.mask = d.capacity - 1
  thr_eq : d.threshold = d.capacity * DICT_LOAD_FACTOR / 100
  count_eq : d.count = occCount d.entries d.capacity
  count_le : d.count ≤ d.threshold
  struct : Struct d.entries d.capacity

/-- Slot `j` holds an entry that a lookup for `k` accepts: occupied,
cached hash equal to `hash(k)`, and key `ObjectsEqual` to `k`. -/
def MatchesAt (E : Nat → Entry) (k : Obj) (j : Nat) : Prop :=
  (E j).psl ≠ 0 ∧ (E j).hash = hashObj k ∧ ObjectsEqualOpt (E j).key k = true

instance (E : Nat → Entry) (k : Obj) (j : Nat) : Decidable (MatchesAt E k j) := by
  unfold MatchesAt; infer_instance

/-- The table holds an entry that a lookup for `k` accepts. -/
def ContainsEq (E : Nat → Entry) (cap : Nat) (k : Obj) : Prop :=
  ∃ j < cap, MatchesAt E k j

instance (E : Nat → Entry) (cap : Nat) (k : Obj) : Decidable (ContainsEq E cap k) :=
  Nat.decidableExistsLT (p := fun j => MatchesAt E k j) cap

theorem occCount_lt_of_empty {E : Nat → Entry} {cap : Nat}
    (h : occCount E cap < cap) : ∃ z < cap, (E z).psl = 0 := by
  by_contra hc
  push_neg at hc
  have : (Finset.range cap).filter (fun i => (E i).psl ≠ 0) = Finset.range cap := by
    apply Finset.filter_true_of_mem
    intro i hi
    exact hc i (Finset.mem_range.mp hi)
  unfold occCount at h
  rw [this, Finset.card_range] at h
  omega

/-- Robin Hood richness: every slot on the probe path of an occupied slot
(up to and including that slot) has psl at least the probe distance.
Derived from `pos` and `adj` by walking the path backwards. -/
theorem richness {E : Nat → Entry} {cap : Nat} (st : Struct E cap)
    {j : Nat} (hj : j < cap) (hocc : (E j).psl ≠ 0) :
    ∀ t, 1 ≤ t → t ≤ (E j).psl →
      t ≤ (E ((usize (E j).hash % cap + (t - 1)) % cap)).psl := by
  have hcap : 0 < cap := by omega
  set b := usize (E j).hash % cap with hb
  set p := (E j).psl with hp
  have key : ∀ δ t, t + δ = p → 1 ≤ t → t ≤ (E ((b + (t - 1)) % cap)).psl := by
    intro δ
    induction δ with
    | zero =>
      intro t ht h1
      have htp : t = p := by omega
      subst htp
      have := st.pos j hj hocc
      rw [← hb, ← hp] at this
      rw [← this]
    | succ n ih =>
      intro t ht h1
      have hnext := ih (t + 1) (by omega) (by omega)
      have hlt : (b + (t - 1)) % cap < cap := Nat.mod_lt _ hcap
      have hadj := st.adj ((b + (t - 1)) % cap) hlt
      have hstep : ((b + (t - 1)) % cap + 1) % cap = (b + (t + 1 - 1)) % cap := by
        rw [Nat.mod_add_mod]
        congr 1
        omega
      rw [hstep] at hadj
      omega
  intro t h1 h2
  exact key (p - t) t (by omega) h1

/-- At most one slot matches a given key: two matching slots would hold
`ObjectsEqual` keys with equal cached hashes, contradicting `uniq`
(key equality is symmetric and transitive). -/
theorem matches_unique {E : Nat → Entry} {cap : Nat} (st : Struct E cap)
    {k : Obj} {i j : Nat} (hi : i < cap) (hj : j < cap)
    (hmi : MatchesAt E k i) (hmj : MatchesAt E k j) : i = j := by
  by_contra hne
  obtain ⟨hoi, hhi, hei⟩ := hmi
  obtain ⟨hoj, hhj, hej⟩ := hmj
  obtain ⟨ki, vi, hki, -, -⟩ := st.occ_kv i hi hoi
  obtain ⟨kj, vj, hkj, -, -⟩ := st.occ_kv j hj hoj
  rw [hki] at hei
  rw [hkj] at hej
  simp only [ObjectsEqualOpt] at hei hej
  have hkikj : ObjectsEqual ki kj = true :=
    ObjectsEqual_trans hei ((ObjectsEqual_symm kj k) ▸ hej)
  have := st.uniq i hi j hj hne hoi hoj ki kj hki hkj (by rw [hhi, hhj])
  simp [this] at hkikj

/-! ## Correctness of the `dict_get` probe loop -/

theorem getLoop_found {E : Nat → Entry} {cap K : Nat} (hK : 1 ≤ K)
    (hcap : cap = 2 ^ K) (st : Struct E cap) {k : Obj} {j : Nat}
    (hj : j < cap) (hm : MatchesAt E k j) :
    ∀ t fuel idx, 1 ≤ t → t ≤ (E j).psl → (E j).psl + 1 - t ≤ fuel →
      idx = (usize (hashObj k) % cap + (t - 1)) % cap →
      getLoop (cap - 1) (hashObj k) k fuel E idx t = some (E j).value := by
  have hcap0 : 0 < cap := by rw [hcap]; positivity
  have hmask : ∀ x : Nat, x &&& (cap - 1) = x % cap := by
    intro x
    rw [hcap]
    exact Nat.and_pow_two_sub_one_eq_mod x K
  obtain ⟨hocc, hh, he⟩ := hm
  -- the probe path of `k` is the probe path of slot `j`'s hash
  have hbeq : usize (hashObj k) % cap = usize (E j).hash % cap := by rw [hh]
  intro t fuel
  induction fuel generalizing t with
  | zero => intro idx h1 h2 h3 hidx; omega
  | succ f ih =>
    intro idx h1 h2 h3 hidx
    have hidxlt : idx < cap := hidx ▸ Nat.mod_lt _ hcap0
    have hrich : t ≤ (E idx).psl := by
      rw [hidx, hbeq]
      exact richness st hj hocc t h1 h2
    simp only [getLoop]
    rw [if_neg (by omega)]
    by_cases heq : ((E idx).hash == hashObj k && ObjectsEqualOpt (E idx).key k) = true
    · -- a match: by uniqueness it is slot `j`
      rw [if_pos heq]
      simp only [Bool.and_eq_true, beq_iff_eq] at heq
      have : idx = j := matches_unique st hidxlt hj ⟨by omega, heq.1, heq.2⟩ ⟨hocc, hh, he⟩
      rw [this]
    · rw [if_neg heq, if_neg (by omega)]
      -- not the match, so t < psl of `j` (at t = psl the slot IS `j`)
      have htp : t ≠ (E j).psl := by
        intro hteq
        apply heq
        have : idx = j := by
          rw [hidx, hbeq, hteq]
          exact (st.pos j hj hocc).symm
        rw [this]
        simp only [Bool.and_eq_true, beq_iff_eq]
        exact ⟨by rw [hh], he⟩
      have hstep : (idx + 1) &&& (cap - 1) = (usize (hashObj k) % cap + (t + 1 - 1)) % cap := by
        rw [hmask, hidx, Nat.mod_add_mod]
        congr 1
        omega
      rw [hstep]
      exact ih (t + 1) _ (by omega) (by omega) (by omega) rfl

theorem getLoop_notfound {E : Nat → Entry} {cap K : Nat} (hK : 1 ≤ K)
    (hcap : cap = 2 ^ K) (st : Struct E cap) {k : Obj}
    (habs : ∀ j < cap, ¬MatchesAt E k j) {z : Nat} (hz : z < cap)
    (hze : (E z).psl = 0) :
    ∀ fuel t idx, 1 ≤ t → idx < cap → dist cap idx z < fuel →
      getLoop (cap - 1) (hashObj k) k fuel E idx t = some none := by
  have hcap0 : 0 < cap := by rw [hcap]; positivity
  have hmask : ∀ x : Nat, x &&& (cap - 1) = x % cap := by
    intro x
    rw [hcap]
    exact Nat.and_pow_two_sub_one_eq_mod x K
  intro fuel
  induction fuel with
  | zero => intro t idx h1 h2 h3; omega
  | succ f ih =>
    intro t idx h1 hidxlt h3
    simp only [getLoop]
    by_cases hzero : (E idx).psl = 0
    · rw [if_pos hzero]
    · rw [if_neg hzero]
      by_cases heq : ((E idx).hash == hashObj k && ObjectsEqualOpt (E idx).key k) = true
      · exfalso
        simp only [Bool.and_eq_true, beq_iff_eq] at heq
        exact habs idx hidxlt ⟨hzero, heq.1, heq.2⟩
      · rw [if_neg heq]
        by_cases hpoor : (E idx).psl < t
        · rw [if_pos hpoor]
        · rw [if_neg hpoor]
          have hne : idx ≠ z := by
            intro hc
            rw [hc] at hzero
            exact hzero hze
          have hdist := dist_succ hidxlt hz hne
          rw [hmask]
          exact ih (t + 1) ((idx + 1) % cap) (by omega) (Nat.mod_lt _ hcap0) (by omega)

/-! ## Occupancy counting and slot bookkeeping -/

theorem occCount_succ (E : Nat → Entry) (n : Nat) :
    occCount E (n + 1) = occCount E n + (if (E n).psl = 0 then 0 else 1) := by
  by_cases hocc : (E n).psl = 0
  · rw [if_pos hocc]
    unfold occCount
    rw [Finset.range_succ, Finset.filter_insert, if_neg (by simp [hocc])]
    omega
  · rw [if_neg hocc]
    unfold occCount
    rw [Finset.range_succ, Finset.filter_insert, if_pos (by simp [hocc]),
      Finset.card_insert_of_not_mem (by simp)]

theorem occCount_congr {E E' : Nat → Entry} {cap : Nat}
    (h : ∀ i < cap, (E i).psl = (E' i).psl) : occCount E cap = occCount E' cap := by
  induction cap with
  | zero => rfl
  | succ n ih =>
    rw [occCount_succ, occCount_succ, ih (fun i hi => h i (by omega)), h n (by omega)]

theorem occCount_update {E : Nat → Entry} {cap idx : Nat} (e : Entry) (hidx : idx < cap) :
    occCount (Function.update E idx e) cap + (if (E idx).psl = 0 then 0 else 1) =
      occCount E cap + (if e.psl = 0 then 0 else 1) := by
  induction cap with
  | zero => omega
  | succ n ih =>
    rcases Nat.lt_or_ge idx n with hlt | hge
    · rw [occCount_succ, occCount_succ, Function.update_noteq (by omega)]
      have := ih hlt
      omega
    · have hidxn : idx = n := by omega
      subst hidxn
      rw [occCount_succ, occCount_succ, Function.update_same,
        @occCount_congr (Function.update E idx e) E idx
          (fun i hi => by rw [Function.update_noteq (by omega)])]
      omega

theorem occCount_le (E : Nat → Entry) (cap : Nat) : occCount E cap ≤ cap := by
  unfold occCount
  calc ((Finset.range cap).filter _).card ≤ (Finset.range cap).card :=
        Finset.card_filter_le _ _
    _ = cap := Finset.card_range cap

/-! ## Cyclic-successor facts -/

theorem nx_prev {cap idx : Nat} (hcap : 0 < cap) (hidx : idx < cap) :
    ((idx + (cap - 1)) % cap + 1) % cap = idx := by
  rw [Nat.mod_add_mod, show idx + (cap - 1) + 1 = idx + cap by omega,
    Nat.add_mod_right, Nat.mod_eq_of_lt hidx]

theorem prev_nx {cap idx : Nat} (hcap : 0 < cap) (hidx : idx < cap) :
    ((idx + 1) % cap + (cap - 1)) % cap = idx := by
  rw [Nat.mod_add_mod, show idx + 1 + (cap - 1) = idx + cap by omega,
    Nat.add_mod_right, Nat.mod_eq_of_lt hidx]

theorem nx_inj {cap i j : Nat} (hi : i < cap) (hj : j < cap)
    (h : (i + 1) % cap = (j + 1) % cap) : i = j := by
  rcases Nat.le_total i j with hle | hle
  · have h' : (0 + (i + 1)) % cap = (0 + (j + 1)) % cap := by simpa using h
    have := probe_pos_inj (by omega : i + 1 ≤ j + 1)
      (by omega : j + 1 - (i + 1) < cap) h'
    omega
  · have h' : (0 + (j + 1)) % cap = (0 + (i + 1)) % cap := by simpa using h.symm
    have := probe_pos_inj (by omega : j + 1 ≤ i + 1)
      (by omega : i + 1 - (j + 1) < cap) h'
    omega

theorem nx_ne {cap idx : Nat} (hcap : 2 ≤ cap) (hidx : idx < cap) :
    (idx + 1) % cap ≠ idx := by
  intro hc
  have h0 : (idx + 0) % cap = (idx + 1) % cap := by
    rw [Nat.add_zero, Nat.mod_eq_of_lt hidx, hc]
  have := probe_pos_inj (b := idx) (by omega) (by omega) h0
  omega

theorem dist_nx_self {cap idx : Nat} (hcap : 2 ≤ cap) (hidx : idx < cap) :
    dist cap ((idx + 1) % cap) idx = cap - 1 := by
  rcases Nat.lt_or_ge (idx + 1) cap with h1 | h1
  · rw [Nat.mod_eq_of_lt h1, dist_formula h1 hidx]
    split <;> omega
  · have : idx + 1 = cap := by omega
    rw [this, Nat.mod_self, dist_formula (by omega) hidx]
    split <;> omega

/-! ## The stored (hash, key, value) triples -/

/-- The table holds, in some slot, an entry with hash `q.1`, key `q.2.1`
and value `q.2.2`. -/
def HasTrip (E : Nat → Entry) (cap : Nat) (q : Int × Obj × Obj) : Prop :=
  ∃ j < cap, (E j).psl ≠ 0 ∧ (E j).hash = q.1 ∧
    (E j).key = some q.2.1 ∧ (E j).value = some q.2.2

theorem ContainsEq_iff_trip {E : Nat → Entry} {cap : Nat} (st : Struct E cap)
    (k : Obj) :
    ContainsEq E cap k ↔
      ∃ q, HasTrip E cap q ∧ q.1 = hashObj k ∧ ObjectsEqual q.2.1 k = true := by
  constructor
  · rintro ⟨j, hj, hocc, hh, he⟩
    obtain ⟨kj, vj, hkj, hvj, -⟩ := st.occ_kv j hj hocc
    refine ⟨((E j).hash, kj, vj), ⟨j, hj, hocc, rfl, hkj, hvj⟩, hh, ?_⟩
    rw [hkj] at he
    exact he
  · rintro ⟨q, ⟨j, hj, hocc, hh, hk, hv⟩, hqh, hqe⟩
    exact ⟨j, hj, hocc, by rw [hh, hqh], by rw [hk]; exact hqe⟩

/-- The (hash, key, value) triple of an entry, disregarding its psl. -/
def TripOf (e : Entry) (q : Int × Obj × Obj) : Prop :=
  e.hash = q.1 ∧ e.key = some q.2.1 ∧ e.value = some q.2.2

theorem HasTrip_eq_trip {E : Nat → Entry} {cap : Nat} (q : Int × Obj × Obj) :
    HasTrip E cap q ↔ ∃ j < cap, (E j).psl ≠ 0 ∧ TripOf (E j) q := Iff.rfl

theorem HasTrip_update_fill {E : Nat → Entry} {cap idx : Nat} {e : Entry}
    (hidx : idx < cap) (hold : (E idx).psl = 0) (hnew : e.psl ≠ 0)
    (q : Int × Obj × Obj) :
    HasTrip (Function.update E idx e) cap q ↔ HasTrip E cap q ∨ TripOf e q := by
  constructor
  · rintro ⟨j, hj, hocc, htr⟩
    by_cases hji : j = idx
    · subst hji
      rw [Function.update_same] at htr
      exact Or.inr htr
    · rw [Function.update_noteq hji] at hocc htr
      exact Or.inl ⟨j, hj, hocc, htr⟩
  · rintro (⟨j, hj, hocc, htr⟩ | htr)
    · have hji : j ≠ idx := fun hc => hocc (hc ▸ hold)
      exact ⟨j, hj, by rw [Function.update_noteq hji]; exact hocc,
        by rw [Function.update_noteq hji]; exact htr⟩
    · exact ⟨idx, hidx, by rw [Function.update_same]; exact hnew,
        by rw [Function.update_same]; exact htr⟩

theorem HasTrip_update_swap {E : Nat → Entry} {cap idx : Nat} {e : Entry}
    (hidx : idx < cap) (hold : (E idx).psl ≠ 0) (hnew : e.psl ≠ 0)
    (q : Int × Obj × Obj) :
    (HasTrip (Function.update E idx e) cap q ∨ TripOf (E idx) q) ↔
      (HasTrip E cap q ∨ TripOf e q) := by
  constructor
  · rintro (⟨j, hj, hocc, htr⟩ | htr)
    · by_cases hji : j = idx
      · subst hji
        rw [Function.update_same] at htr
        exact Or.inr htr
      · rw [Function.update_noteq hji] at hocc htr
        exact Or.inl ⟨j, hj, hocc, htr⟩
    · exact Or.inl ⟨idx, hidx, hold, htr⟩
  · rintro (⟨j, hj, hocc, htr⟩ | htr)
    · by_cases hji : j = idx
      · subst hji
        exact Or.inr htr
      · exact Or.inl ⟨j, hj, by rw [Function.update_noteq hji]; exact hocc,
          by rw [Function.update_noteq hji]; exact htr⟩
    · exact Or.inl ⟨idx, hidx, by rw [Function.update_same]; exact hnew,
        by rw [Function.update_same]; exact htr⟩

/-- Writing a position-coherent entry into a slot it is at least as rich
as preserves the structural invariant. -/
theorem Struct_write {E : Nat → Entry} {cap : Nat} (st : Struct E cap)
    {idx : Nat} (hidx : idx < cap) {e : Entry} (hcap2 : 2 ≤ cap)
    (hk : ∃ ck, e.key = some ck ∧ e.hash = hashObj ck)
    (hv : ∃ cv, e.value = some cv)
    (hp1 : 1 ≤ e.psl)
    (hpos : idx = (usize e.hash % cap + (e.psl - 1)) % cap)
    (hple : e.psl ≤ cap)
    (hpreadj : e.psl = 1 ∨ e.psl ≤ (E ((idx + (cap - 1)) % cap)).psl + 1)
    (hup : (E idx).psl < e.psl)
    (huniq : ∀ j < cap, j ≠ idx → (E j).psl ≠ 0 → ∀ kj, (E j).key = some kj →
        (E j).hash = e.hash → ∀ ck, e.key = some ck → ObjectsEqual kj ck = false) :
    Struct (Function.update E idx e) cap := by
  have hcap0 : 0 < cap := by omega
  constructor
  · intro i hi hpsl
    by_cases hieq : i = idx
    · subst hieq
      rw [Function.update_same] at hpsl
      omega
    · rw [Function.update_noteq hieq] at hpsl ⊢
      exact st.empty_none i hi hpsl
  · intro i hi hpsl
    by_cases hieq : i = idx
    · subst hieq
      rw [Function.update_same]
      obtain ⟨ck, hck, hh⟩ := hk
      obtain ⟨cv, hcv⟩ := hv
      exact ⟨ck, cv, hck, hcv, hh⟩
    · rw [Function.update_noteq hieq] at hpsl ⊢
      exact st.occ_kv i hi hpsl
  · intro i hi hpsl
    by_cases hieq : i = idx
    · subst hieq
      rw [Function.update_same]
      exact hpos
    · rw [Function.update_noteq hieq] at hpsl ⊢
      exact st.pos i hi hpsl
  · intro i hi
    have hnlt : (i + 1) % cap < cap := Nat.mod_lt _ hcap0
    by_cases hieq : i = idx
    · subst hieq
      have hne := nx_ne hcap2 hi
      rw [Function.update_same, Function.update_noteq hne]
      have := st.adj i hi
      omega
    · by_cases hneq : (i + 1) % cap = idx
      · -- i is the predecessor of idx
        have hiprev : i = (idx + (cap - 1)) % cap := by
          apply nx_inj hi (Nat.mod_lt _ hcap0)
        
          rw [hneq, nx_prev hcap0 hidx]
        rw [hneq, Function.update_same, Function.update_noteq hieq]
        rcases hpreadj with h1 | h2
        · omega
        · rw [← hiprev] at h2
          omega
      · rw [Function.update_noteq hneq, Function.update_noteq hieq]
        exact st.adj i hi
  · intro i hi
    by_cases hieq : i = idx
    · subst hieq
      rw [Function.update_same]
      exact hple
    · rw [Function.update_noteq hieq]
      exact st.psl_le i hi
  · intro i hi j hj hij hoi hoj ki kj hki hkj hhash
    by_cases hieq : i = idx
    · subst hieq
      rw [Function.update_same] at hki hhash
      rw [Function.update_noteq (Ne.symm hij)] at hoj hkj hhash
      obtain ⟨ck, hck, -⟩ := hk
      have : ki = ck := by rw [hki] at hck; injection hck
      subst this
      have := huniq j hj (Ne.symm hij) hoj kj hkj hhash.symm ki hki
      rw [ObjectsEqual_symm]
      exact this
    · rw [Function.update_noteq hieq] at hoi hki
      by_cases hjeq : j = idx
      · subst hjeq
        rw [Function.update_same] at hkj
        rw [Function.update_noteq hieq] at hhash
        rw [Function.update_same] at hhash
        obtain ⟨ck, hck, -⟩ := hk
        have : kj = ck := by rw [hkj] at hck; injection hck
        subst this
        exact huniq i hi hieq hoi ki hki hhash kj hkj
      · rw [Function.update_noteq hjeq] at hoj hkj
        rw [Function.update_noteq hieq, Function.update_noteq hjeq] at hhash
        exact st.uniq i hi j hj hij hoi hoj ki kj hki hkj hhash

/-! ## The Robin Hood insert loop -/

/-- Loop invariant for the probe loop of `dict_set` when the table holds
no entry matching the probed key `k` (insertion case).  `E`, `e`, `idx`
are the loop state, `z` a fixed empty slot. -/
structure SLPre (cap : Nat) (h : Int) (k : Obj) (E : Nat → Entry)
    (e : Entry) (idx z : Nat) : Prop where
  st : Struct E cap
  idx_lt : idx < cap
  z_lt : z < cap
  z_empty : (E z).psl = 0
  ekey : ∃ ck, e.key = some ck ∧ e.hash = hashObj ck
  eval : ∃ cv, e.value = some cv
  epsl1 : 1 ≤ e.psl
  pos : idx = (usize e.hash % cap + (e.psl - 1)) % cap
  preadj : e.psl = 1 ∨ e.psl ≤ (E ((idx + (cap - 1)) % cap)).psl + 1
  carry_uniq : ∀ j < cap, (E j).psl ≠ 0 → ∀ kj, (E j).key = some kj →
      (E j).hash = e.hash → ∀ ck, e.key = some ck → ObjectsEqual kj ck = false
  noeq_future : ∀ j < cap, dist cap idx j ≤ dist cap idx z → (E j).psl ≠ 0 →
      (E j).hash = h → ObjectsEqualOpt (E j).key k = false
  psl_bound : e.psl + dist cap idx z ≤ cap

/-- The probe loop of `dict_set`, insertion case: with an empty slot in
reach it fills exactly one slot, keeps the structural invariant, and the
stored triples afterwards are the old ones plus the carried one. -/
theorem setLoop_insert {cap K : Nat} (hK : 1 ≤ K) (hcap : cap = 2 ^ K)
    (h : Int) (k v : Obj) :
    ∀ fuel (E : Nat → Entry) (e : Entry) (idx z : Nat),
      SLPre cap h k E e idx z → dist cap idx z < fuel →
      ∃ E', setLoop (cap - 1) h k v fuel E e idx = some (E', true) ∧
        Struct E' cap ∧
        occCount E' cap = occCount E cap + 1 ∧
        (∀ q, HasTrip E' cap q ↔ HasTrip E cap q ∨ TripOf e q) := by
  have hcap2 : 2 ≤ cap := by
    rw [hcap]
    calc 2 = 2 ^ 1 := rfl
      _ ≤ 2 ^ K := Nat.pow_le_pow_right (by omega) hK
  have hcap0 : 0 < cap := by omega
  have hmask : ∀ x : Nat, x &&& (cap - 1) = x % cap := fun x => by
    rw [hcap]
    exact Nat.and_pow_two_sub_one_eq_mod x K
  intro fuel
  induction fuel with
  | zero => intro E e idx z pre hf; omega
  | succ f ih =>
    intro E e idx z pre hf
    simp only [setLoop]
    by_cases h0 : (E idx).psl = 0
    · -- empty slot: place the carried entry
      rw [if_pos h0]
      have hple : e.psl ≤ cap := by
        have := pre.psl_bound
        omega
      refine ⟨Function.update E idx e, rfl, ?_, ?_, ?_⟩
      · exact Struct_write pre.st pre.idx_lt hcap2 pre.ekey pre.eval pre.epsl1
          pre.pos hple pre.preadj (by have := pre.epsl1; omega)
          (fun j hj _ => pre.carry_uniq j hj)
      · have hupd := occCount_update (E := E) e pre.idx_lt
        rw [if_pos h0] at hupd
        rw [if_neg (by have := pre.epsl1; omega : ¬e.psl = 0)] at hupd
        omega
      · exact HasTrip_update_fill pre.idx_lt h0 (by have := pre.epsl1; omega)
    · rw [if_neg h0]
      have hnoeq : ¬((E idx).hash == h && ObjectsEqualOpt (E idx).key k) = true := by
        intro hc
        simp only [Bool.and_eq_true, beq_iff_eq] at hc
        have hd0 : dist cap idx idx ≤ dist cap idx z := by
          rw [dist_self]
          omega
        have := pre.noeq_future idx pre.idx_lt hd0 h0 hc.1
        rw [this] at hc
        exact absurd hc.2 (by simp)
      rw [if_neg hnoeq]
      have hzne : idx ≠ z := fun hc => h0 (hc ▸ pre.z_empty)
      have hdist1 : dist cap ((idx + 1) % cap) z + 1 = dist cap idx z :=
        dist_succ pre.idx_lt pre.z_lt hzne
      have hidx1lt : (idx + 1) % cap < cap := Nat.mod_lt _ hcap0
      have hz1ne : ∀ j, j < cap →
          dist cap ((idx + 1) % cap) j ≤ dist cap ((idx + 1) % cap) z →
          j ≠ idx ∧ dist cap idx j ≤ dist cap idx z := by
        intro j hj hdj
        have hdzlt : dist cap idx z < cap := dist_lt hcap0 idx z
        have hdnx : dist cap ((idx + 1) % cap) idx = cap - 1 :=
          dist_nx_self hcap2 pre.idx_lt
        have hne : j ≠ idx := by
          intro hc
          subst hc
          omega
        refine ⟨hne, ?_⟩
        have hstep := dist_succ pre.idx_lt hj (Ne.symm hne)
        omega
      by_cases hswap : e.psl > (E idx).psl
      · -- Robin Hood swap: deposit the carried entry, pick up the resident
        rw [if_pos hswap, hmask]
        obtain ⟨kc, vc, hkc, hvc, hhc⟩ := pre.st.occ_kv idx pre.idx_lt h0
        have hpos1 : (idx + 1) % cap =
            (usize (E idx).hash % cap + ((E idx).psl + 1 - 1)) % cap := by
          conv_lhs => rw [pre.st.pos idx pre.idx_lt h0]
          rw [Nat.mod_add_mod]
          congr 1
          omega
        have hstw : Struct (Function.update E idx e) cap :=
          Struct_write pre.st pre.idx_lt hcap2 pre.ekey pre.eval pre.epsl1
            pre.pos (by have := pre.psl_bound; omega) pre.preadj (by omega)
            (fun j hj _ => pre.carry_uniq j hj)
        have pre1 : SLPre cap h k (Function.update E idx e)
            { E idx with psl := (E idx).psl + 1 } ((idx + 1) % cap) z := by
          refine ⟨hstw, hidx1lt, pre.z_lt, ?_, ⟨kc, hkc, hhc⟩, ⟨vc, hvc⟩,
            (by show 1 ≤ (E idx).psl + 1; omega), (by exact hpos1), ?_, ?_, ?_, ?_⟩
          · rw [Function.update_noteq (Ne.symm hzne)]
            exact pre.z_empty
          · refine Or.inr ?_
            have hprev : ((idx + 1) % cap + (cap - 1)) % cap = idx :=
              prev_nx hcap0 pre.idx_lt
            rw [hprev, Function.update_same]
            show (E idx).psl + 1 ≤ e.psl + 1
            omega
          · intro j hj hocc kj hkj hhash ck1 hck1
            have hck1x : (E idx).key = some ck1 := hck1
            have hckc : ck1 = kc := by
              rw [hkc] at hck1x
              injection hck1x with hx
              exact hx.symm
            subst hckc
            by_cases hji : j = idx
            · rw [hji, Function.update_same] at hkj hhash
              obtain ⟨ck, hck, -⟩ := pre.ekey
              have hkjck : kj = ck := by
                rw [hck] at hkj
                injection hkj with hx
                exact hx.symm
              subst hkjck
              have hhash2 : e.hash = (E idx).hash := hhash
              have hres := pre.carry_uniq idx pre.idx_lt h0 ck1 hkc hhash2.symm kj hck
              rw [ObjectsEqual_symm]
              exact hres
            · rw [Function.update_noteq hji] at hocc hkj hhash
              exact pre.st.uniq j hj idx pre.idx_lt hji hocc h0 kj ck1 hkj hkc hhash
          · intro j hj hdj hocc hhash
            obtain ⟨hne, hdle⟩ := hz1ne j hj hdj
            rw [Function.update_noteq hne] at hocc hhash ⊢
            exact pre.noeq_future j hj hdle hocc hhash
          · show (E idx).psl + 1 + dist cap ((idx + 1) % cap) z ≤ cap
            have := pre.psl_bound
            omega
        obtain ⟨E', heq, hst, hocc, htrip⟩ := ih (Function.update E idx e)
          { E idx with psl := (E idx).psl + 1 } ((idx + 1) % cap) z pre1 (by omega)
        refine ⟨E', heq, hst, ?_, ?_⟩
        · have hupd := occCount_update (E := E) e pre.idx_lt
          rw [if_neg h0, if_neg (by omega : ¬e.psl = 0)] at hupd
          omega
        · intro q
          have h1 := htrip q
          have h2 := HasTrip_update_swap pre.idx_lt h0
            (by omega : e.psl ≠ 0) (q := q)
          have htof : TripOf { E idx with psl := (E idx).psl + 1 } q ↔
              TripOf (E idx) q := by
            constructor <;> exact fun hx => hx
          constructor
          · intro hh'
            rcases h1.mp hh' with hA | hB
            · exact h2.mp (Or.inl hA)
            · exact h2.mp (Or.inr (htof.mp hB))
          · intro hh'
            rcases h2.mpr hh' with hA | hB
            · exact h1.mpr (Or.inl hA)
            · exact h1.mpr (Or.inr (htof.mpr hB))
      · -- keep probing: the resident is at least as rich
        rw [if_neg hswap, hmask]
        obtain ⟨ck, hck, hhc⟩ := pre.ekey
        have hpos2 : (idx + 1) % cap =
            (usize e.hash % cap + (e.psl + 1 - 1)) % cap := by
          conv_lhs => rw [pre.pos]
          rw [Nat.mod_add_mod]
          congr 1
          have := pre.epsl1
          omega
        have pre2 : SLPre cap h k E { e with psl := e.psl + 1 } ((idx + 1) % cap) z := by
          refine ⟨pre.st, hidx1lt, pre.z_lt, pre.z_empty, ⟨ck, hck, hhc⟩, pre.eval,
            (by show 1 ≤ e.psl + 1; omega), (by exact hpos2), ?_, ?_, ?_, ?_⟩
          · refine Or.inr ?_
            have hprev : ((idx + 1) % cap + (cap - 1)) % cap = idx :=
              prev_nx hcap0 pre.idx_lt
            rw [hprev]
            show e.psl + 1 ≤ (E idx).psl + 1
            omega
          · intro j hj hocc kj hkj hhash ck1 hck1
            exact pre.carry_uniq j hj hocc kj hkj hhash ck1 hck1
          · intro j hj hdj hocc hhash
            obtain ⟨hne, hdle⟩ := hz1ne j hj hdj
            exact pre.noeq_future j hj hdle hocc hhash
          · show e.psl + 1 + dist cap ((idx + 1) % cap) z ≤ cap
            have := pre.psl_bound
            omega
        obtain ⟨E', heq, hst, hocc, htrip⟩ := ih E { e with psl := e.psl + 1 }
          ((idx + 1) % cap) z pre2 (by omega)
        refine ⟨E', heq, hst, hocc, ?_⟩
        intro q
        rw [htrip q]
        have htof : TripOf { e with psl := e.psl + 1 } q ↔ TripOf e q := by
          constructor <;> exact fun hx => hx
        rw [htof]

/-- The probe loop of `dict_set`, update case: when slot `j` matches the
probed key, the loop walks to it without modifying anything and replaces
its value. -/
theorem setLoop_update {cap K : Nat} (hK : 1 ≤ K) (hcap : cap = 2 ^ K)
    {E : Nat → Entry} (st : Struct E cap) (k v : Obj) {j : Nat}
    (hj : j < cap) (hm : MatchesAt E k j) :
    ∀ fuel t (e : Entry) idx, 1 ≤ t → t ≤ (E j).psl → (E j).psl + 1 - t ≤ fuel →
      e.psl = t → idx = (usize (hashObj k) % cap + (t - 1)) % cap →
      setLoop (cap - 1) (hashObj k) k v fuel E e idx =
        some (Function.update E j { E j with value := some v }, false) := by
  have hcap0 : 0 < cap := by rw [hcap]; positivity
  have hmask : ∀ x : Nat, x &&& (cap - 1) = x % cap := fun x => by
    rw [hcap]
    exact Nat.and_pow_two_sub_one_eq_mod x K
  obtain ⟨hocc, hh, he⟩ := hm
  have hbeq : usize (hashObj k) % cap = usize (E j).hash % cap := by rw [hh]
  intro fuel
  induction fuel with
  | zero => intro t e idx h1 h2 h3 hpsl hidx; omega
  | succ f ih =>
    intro t e idx h1 h2 h3 hpsl hidx
    have hidxlt : idx < cap := by
      rw [hidx]
      exact Nat.mod_lt _ hcap0
    have hrich : t ≤ (E idx).psl := by
      rw [hidx, hbeq]
      exact richness st hj hocc t h1 h2
    simp only [setLoop]
    rw [if_neg (by omega)]
    by_cases heq : ((E idx).hash == hashObj k && ObjectsEqualOpt (E idx).key k) = true
    · rw [if_pos heq]
      simp only [Bool.and_eq_true, beq_iff_eq] at heq
      have hij : idx = j :=
        matches_unique st hidxlt hj ⟨by omega, heq.1, heq.2⟩ ⟨hocc, hh, he⟩
      rw [hij]
    · rw [if_neg heq]
      have htp : t ≠ (E j).psl := by
        intro hteq
        apply heq
        have hidxj : idx = j := by
          rw [hidx, hbeq, hteq]
          exact (st.pos j hj hocc).symm
        rw [hidxj]
        simp only [Bool.and_eq_true, beq_iff_eq]
        exact ⟨hh, he⟩
      rw [if_neg (by omega : ¬ e.psl > (E idx).psl), hmask]
      have hstep : (idx + 1) % cap = (usize (hashObj k) % cap + (t + 1 - 1)) % cap := by
        rw [hidx, Nat.mod_add_mod]
        congr 1
        omega
      exact ih (t + 1) { e with psl := e.psl + 1 } ((idx + 1) % cap) (by omega)
        (by omega) (by omega) (by show e.psl + 1 = t + 1; omega) hstep

/-! ## The resize reinsertion loop -/

/-- Loop invariant for the reinsertion loop of `_dict_resize`: the same
as `SLPre` without the lookup-key conditions (the resize loop has no
equality branch). -/
structure RLPre (cap : Nat) (E : Nat → Entry) (e : Entry) (idx z : Nat) : Prop where
  st : Struct E cap
  idx_lt : idx < cap
  z_lt : z < cap
  z_empty : (E z).psl = 0
  ekey : ∃ ck, e.key = some ck ∧ e.hash = hashObj ck
  eval : ∃ cv, e.value = some cv
  epsl1 : 1 ≤ e.psl
  pos : idx = (usize e.hash % cap + (e.psl - 1)) % cap
  preadj : e.psl = 1 ∨ e.psl ≤ (E ((idx + (cap - 1)) % cap)).psl + 1
  carry_uniq : ∀ j < cap, (E j).psl ≠ 0 → ∀ kj, (E j).key = some kj →
      (E j).hash = e.hash → ∀ ck, e.key = some ck → ObjectsEqual kj ck = false
  psl_bound : e.psl + dist cap idx z ≤ cap

theorem reinsertLoop_spec {cap K : Nat} (hK : 1 ≤ K) (hcap : cap = 2 ^ K) :
    ∀ fuel (E : Nat → Entry) (e : Entry) (idx z : Nat),
      RLPre cap E e idx z → dist cap idx z < fuel →
      ∃ E', reinsertLoop (cap - 1) fuel E e idx = some E' ∧
        Struct E' cap ∧
        occCount E' cap = occCount E cap + 1 ∧
        (∀ q, HasTrip E' cap q ↔ HasTrip E cap q ∨ TripOf e q) := by
  have hcap2 : 2 ≤ cap := by
    rw [hcap]
    calc 2 = 2 ^ 1 := rfl
      _ ≤ 2 ^ K := Nat.pow_le_pow_right (by omega) hK
  have hcap0 : 0 < cap := by omega
  have hmask : ∀ x : Nat, x &&& (cap - 1) = x % cap := fun x => by
    rw [hcap]
    exact Nat.and_pow_two_sub_one_eq_mod x K
  intro fuel
  induction fuel with
  | zero => intro E e idx z pre hf; omega
  | succ f ih =>
    intro E e idx z pre hf
    simp only [reinsertLoop]
    by_cases h0 : (E idx).psl = 0
    · rw [if_pos h0]
      have hple : e.psl ≤ cap := by
        have := pre.psl_bound
        omega
      refine ⟨Function.update E idx e, rfl, ?_, ?_, ?_⟩
      · exact Struct_write pre.st pre.idx_lt hcap2 pre.ekey pre.eval pre.epsl1
          pre.pos hple pre.preadj (by have := pre.epsl1; omega)
          (fun j hj _ => pre.carry_uniq j hj)
      · have hupd := occCount_update (E := E) e pre.idx_lt
        rw [if_pos h0] at hupd
        rw [if_neg (by have := pre.epsl1; omega : ¬e.psl = 0)] at hupd
        omega
      · exact HasTrip_update_fill pre.idx_lt h0 (by have := pre.epsl1; omega)
    · rw [if_neg h0]
      have hzne : idx ≠ z := fun hc => h0 (hc ▸ pre.z_empty)
      have hdist1 : dist cap ((idx + 1) % cap) z + 1 = dist cap idx z :=
        dist_succ pre.idx_lt pre.z_lt hzne
      have hidx1lt : (idx + 1) % cap < cap := Nat.mod_lt _ hcap0
      by_cases hswap : e.psl > (E idx).psl
      · rw [if_pos hswap, hmask]
        obtain ⟨kc, vc, hkc, hvc, hhc⟩ := pre.st.occ_kv idx pre.idx_lt h0
        have hpos1 : (idx + 1) % cap =
            (usize (E idx).hash % cap + ((E idx).psl + 1 - 1)) % cap := by
          conv_lhs => rw [pre.st.pos idx pre.idx_lt h0]
          rw [Nat.mod_add_mod]
          congr 1
          omega
        have hstw : Struct (Function.update E idx e) cap :=
          Struct_write pre.st pre.idx_lt hcap2 pre.ekey pre.eval pre.epsl1
            pre.pos (by have := pre.psl_bound; omega) pre.preadj (by omega)
            (fun j hj _ => pre.carry_uniq j hj)
        have pre1 : RLPre cap (Function.update E idx e)
            { E idx with psl := (E idx).psl + 1 } ((idx + 1) % cap) z := by
          refine ⟨hstw, hidx1lt, pre.z_lt, ?_, ⟨kc, hkc, hhc⟩, ⟨vc, hvc⟩,
            (by show 1 ≤ (E idx).psl + 1; omega), (by exact hpos1), ?_, ?_, ?_⟩
          · rw [Function.update_noteq (Ne.symm hzne)]
            exact pre.z_empty
          · refine Or.inr ?_
            have hprev : ((idx + 1) % cap + (cap - 1)) % cap = idx :=
              prev_nx hcap0 pre.idx_lt
            rw [hprev, Function.update_same]
            show (E idx).psl + 1 ≤ e.psl + 1
            omega
          · intro j hj hocc kj hkj hhash ck1 hck1
            have hck1x : (E idx).key = some ck1 := hck1
            have hckc : ck1 = kc := by
              rw [hkc] at hck1x
              injection hck1x with hx
              exact hx.symm
            subst hckc
            by_cases hji : j = idx
            · rw [hji, Function.update_same] at hkj hhash
              obtain ⟨ck, hck, -⟩ := pre.ekey
              have hkjck : kj = ck := by
                rw [hck] at hkj
                injection hkj with hx
                exact hx.symm
              subst hkjck
              have hhash2 : e.hash = (E idx).hash := hhash
              have hres := pre.carry_uniq idx pre.idx_lt h0 ck1 hkc hhash2.symm kj hck
              rw [ObjectsEqual_symm]
              exact hres
            · rw [Function.update_noteq hji] at hocc hkj hhash
              exact pre.st.uniq j hj idx pre.idx_lt hji hocc h0 kj ck1 hkj hkc hhash
          · show (E idx).psl + 1 + dist cap ((idx + 1) % cap) z ≤ cap
            have := pre.psl_bound
            omega
        obtain ⟨E', heq, hst, hocc, htrip⟩ := ih (Function.update E idx e)
          { E idx with psl := (E idx).psl + 1 } ((idx + 1) % cap) z pre1 (by omega)
        refine ⟨E', heq, hst, ?_, ?_⟩
        · have hupd := occCount_update (E := E) e pre.idx_lt
          rw [if_neg h0, if_neg (by have := pre.epsl1; omega : ¬e.psl = 0)] at hupd
          omega
        · intro q
          have h1 := htrip q
          have h2 := HasTrip_update_swap pre.idx_lt h0
            (by have := pre.epsl1; omega : e.psl ≠ 0) (q := q)
          have htof : TripOf { E idx with psl := (E idx).psl + 1 } q ↔
              TripOf (E idx) q := by
            constructor <;> exact fun hx => hx
          constructor
          · intro hh'
            rcases h1.mp hh' with hA | hB
            · exact h2.mp (Or.inl hA)
            · exact h2.mp (Or.inr (htof.mp hB))
          · intro hh'
            rcases h2.mpr hh' with hA | hB
            · exact h1.mpr (Or.inl hA)
            · exact h1.mpr (Or.inr (htof.mpr hB))
      · rw [if_neg hswap, hmask]
        obtain ⟨ck, hck, hhc⟩ := pre.ekey
        have hpos2 : (idx + 1) % cap =
            (usize e.hash % cap + (e.psl + 1 - 1)) % cap := by
          conv_lhs => rw [pre.pos]
          rw [Nat.mod_add_mod]
          congr 1
          have := pre.epsl1
          omega
        have pre2 : RLPre cap E { e with psl := e.psl + 1 } ((idx + 1) % cap) z := by
          refine ⟨pre.st, hidx1lt, pre.z_lt, pre.z_empty, ⟨ck, hck, hhc⟩, pre.eval,
            (by show 1 ≤ e.psl + 1; omega), (by exact hpos2), ?_, ?_, ?_⟩
          · refine Or.inr ?_
            have hprev : ((idx + 1) % cap + (cap - 1)) % cap = idx :=
              prev_nx hcap0 pre.idx_lt
            rw [hprev]
            show e.psl + 1 ≤ (E idx).psl + 1
            omega
          · intro j hj hocc kj hkj hhash ck1 hck1
            exact pre.carry_uniq j hj hocc kj hkj hhash ck1 hck1
          · show e.psl + 1 + dist cap ((idx + 1) % cap) z ≤ cap
            have := pre.psl_bound
            omega
        obtain ⟨E', heq, hst, hocc, htrip⟩ := ih E { e with psl := e.psl + 1 }
          ((idx + 1) % cap) z pre2 (by omega)
        refine ⟨E', heq, hst, hocc, ?_⟩
        intro q
        rw [htrip q]
        have htof : TripOf { e with psl := e.psl + 1 } q ↔ TripOf e q := by
          constructor <;> exact fun hx => hx
        rw [htof]

theorem occCount_empty (cap : Nat) : occCount (fun _ => emptyEntry) cap = 0 := by
  induction cap with
  | zero => rfl
  | succ n ih => rw [occCount_succ, ih]; simp [emptyEntry]

theorem occCount_eq_countP (E : Nat → Entry) (cap : Nat) :
    occCount E cap = (List.range cap).countP (fun i => decide (0 < (E i).psl)) := by
  induction cap with
  | zero => rfl
  | succ n ih =>
    rw [occCount_succ, ih, List.range_succ, List.countP_append]
    simp only [List.countP_cons, List.countP_nil]
    by_cases h : (E n).psl = 0
    · simp [h]
    · simp [h, Nat.pos_of_ne_zero h]

theorem Struct_empty (cap : Nat) : Struct (fun _ => emptyEntry) cap := by
  constructor
  · intro i _ _
    exact ⟨rfl, rfl⟩
  · intro i _ hocc
    exact absurd rfl hocc
  · intro i _ hocc
    exact absurd rfl hocc
  · intro i _
    show emptyEntry.psl ≤ emptyEntry.psl + 1
    omega
  · intro i _
    show emptyEntry.psl ≤ cap
    show 0 ≤ cap
    omega
  · intro i _ j _ _ hocc
    exact absurd rfl hocc

/-- The reinsertion `for` loop of `_dict_resize`: starting from a table
holding the triples of the old slots outside `l`, it adds the triples of
the old occupied slots in `l`, counting them. -/
theorem resizeFold_spec {cap K : Nat} (hK : 1 ≤ K) (hcap : cap = 2 ^ K)
    (old : Nat → Entry) (oldCap : Nat) (stOld : Struct old oldCap) :
    ∀ (l : List Nat) (E : Nat → Entry) (cnt : Nat),
      (∀ i ∈ l, i < oldCap) → l.Nodup →
      Struct E cap →
      occCount E cap = cnt →
      occCount E cap + l.length ≤ oldCap →
      oldCap < cap →
      (∀ q, HasTrip E cap q →
        ∃ j < oldCap, j ∉ l ∧ (old j).psl ≠ 0 ∧ TripOf (old j) q) →
      ∃ E' cnt', resizeFold (cap - 1) old l E cnt = some (E', cnt') ∧
        Struct E' cap ∧
        occCount E' cap = cnt' ∧
        cnt' = cnt + l.countP (fun i => decide (0 < (old i).psl)) ∧
        (∀ q, HasTrip E' cap q ↔ HasTrip E cap q ∨
          ∃ j < oldCap, j ∈ l ∧ (old j).psl ≠ 0 ∧ TripOf (old j) q) := by
  have hcap0 : 0 < cap := by rw [hcap]; positivity
  have hmask : ∀ x : Nat, x &&& (cap - 1) = x % cap := fun x => by
    rw [hcap]
    exact Nat.and_pow_two_sub_one_eq_mod x K
  intro l
  induction l with
  | nil =>
    intro E cnt hb hnd st hocc hroom holdlt htrips
    refine ⟨E, cnt, rfl, st, hocc, by simp, ?_⟩
    intro q
    constructor
    · exact Or.inl
    · rintro (hq | ⟨j, hj, hmem, -⟩)
      · exact hq
      · exact absurd hmem (List.not_mem_nil j)
  | cons i rest ih =>
    intro E cnt hb hnd st hocc hroom holdlt htrips
    have hi : i < oldCap := hb i (List.mem_cons_self i rest)
    have hndr := (List.nodup_cons.mp hnd).2
    have hinr : i ∉ rest := (List.nodup_cons.mp hnd).1
    simp only [resizeFold]
    by_cases hio : (old i).psl > 0
    · rw [if_pos hio]
      obtain ⟨ck, cv, hck, hcv, hch⟩ := stOld.occ_kv i hi (by omega)
      -- an empty slot exists: the table is strictly less than full
      obtain ⟨z, hz, hze⟩ := occCount_lt_of_empty
        (show occCount E cap < cap by simp at hroom; omega)
      have pre : RLPre cap E { old i with psl := 1 }
          (usize (old i).hash % cap) z := by
        refine ⟨st, Nat.mod_lt _ hcap0, hz, hze, ⟨ck, hck, hch⟩, ⟨cv, hcv⟩,
          (by show 1 ≤ 1; omega), ?_, Or.inl rfl, ?_, ?_⟩
        · show usize (old i).hash % cap = (usize (old i).hash % cap + (1 - 1)) % cap
          rw [show (1 : Nat) - 1 = 0 from rfl, Nat.add_zero,
            Nat.mod_mod_of_dvd _ (dvd_refl cap)]
        · intro j hj hjocc kj hkj hjh ck1 hck1
          have hck1x : (old i).key = some ck1 := hck1
          have hckc : ck1 = ck := by
            rw [hck] at hck1x
            injection hck1x with hx
            exact hx.symm
          subst hckc
          -- the stored entry at j comes from an old slot j0 ≠ i
          obtain ⟨kv, vv, hkv, hvv, hhv⟩ := st.occ_kv j hj hjocc
          obtain ⟨j0, hj0, hj0nl, hj0occ, hj0h, hj0k, hj0v⟩ :=
            htrips ((E j).hash, kv, vv) ⟨j, hj, hjocc, rfl, hkv, hvv⟩
          have hj0i : j0 ≠ i := fun hc => hj0nl (hc ▸ List.mem_cons_self i rest)
          have hkjkv : kj = kv := by
            rw [hkv] at hkj
            injection hkj with hx
            exact hx.symm
          subst hkjkv
          have hhash0 : (old j0).hash = (old i).hash := by
            rw [hj0h]
            exact hjh
          exact stOld.uniq j0 hj0 i hi hj0i hj0occ (by omega) kj ck1
            hj0k hck hhash0
        · show 1 + dist cap (usize (old i).hash % cap) z ≤ cap
          have := dist_lt hcap0 (usize (old i).hash % cap) z
          omega
      have hfuel : dist cap (usize (old i).hash % cap) z < cap - 1 + 2 := by
        have := dist_lt hcap0 (usize (old i).hash % cap) z
        omega
      obtain ⟨E1, heq1, st1, hocc1, htrip1⟩ :=
        reinsertLoop_spec hK hcap (cap - 1 + 2) E { old i with psl := 1 }
          (usize (old i).hash % cap) z pre hfuel
      rw [hmask, heq1]
      have htrips1 : ∀ q, HasTrip E1 cap q →
          ∃ j < oldCap, j ∉ rest ∧ (old j).psl ≠ 0 ∧ TripOf (old j) q := by
        intro q hq
        rcases (htrip1 q).mp hq with hA | hB
        · obtain ⟨j, hj, hjnl, hjo, hjt⟩ := htrips q hA
          exact ⟨j, hj, fun hc => hjnl (List.mem_cons_of_mem i hc), hjo, hjt⟩
        · exact ⟨i, hi, hinr, by omega, hB⟩
      obtain ⟨E', cnt', heq', st', hocc', hcnt', htrip'⟩ :=
        ih E1 (cnt + 1) (fun j hj => hb j (List.mem_cons_of_mem i hj)) hndr st1
          (by omega) (by simp at hroom; omega) holdlt htrips1
      refine ⟨E', cnt', heq', st', hocc', ?_, ?_⟩
      · rw [hcnt', List.countP_cons]
        simp [hio]
        omega
      · intro q
        rw [htrip' q]
        constructor
        · rintro (hA | ⟨j, hj, hjm, hjo, hjt⟩)
          · rcases (htrip1 q).mp hA with hA' | hB'
            · exact Or.inl hA'
            · exact Or.inr ⟨i, hi, List.mem_cons_self i rest, by omega, hB'⟩
          · exact Or.inr ⟨j, hj, List.mem_cons_of_mem i hjm, hjo, hjt⟩
        · rintro (hA | ⟨j, hj, hjm, hjo, hjt⟩)
          · exact Or.inl ((htrip1 q).mpr (Or.inl hA))
          · rcases List.mem_cons.mp hjm with hji | hjr
            · subst hji
              exact Or.inl ((htrip1 q).mpr (Or.inr hjt))
            · exact Or.inr ⟨j, hj, hjr, hjo, hjt⟩
    · rw [if_neg hio]
      have htripsr : ∀ q, HasTrip E cap q →
          ∃ j < oldCap, j ∉ rest ∧ (old j).psl ≠ 0 ∧ TripOf (old j) q := by
        intro q hq
        obtain ⟨j, hj, hjnl, hjo, hjt⟩ := htrips q hq
        exact ⟨j, hj, fun hc => hjnl (List.mem_cons_of_mem i hc), hjo, hjt⟩
      obtain ⟨E', cnt', heq', st', hocc', hcnt', htrip'⟩ :=
        ih E cnt (fun j hj => hb j (List.mem_cons_of_mem i hj)) hndr st
          hocc (by simp at hroom; omega) holdlt htripsr
      refine ⟨E', cnt', heq', st', hocc', ?_, ?_⟩
      · rw [hcnt', List.countP_cons]
        simp [hio]
      · intro q
        rw [htrip' q]
        constructor
        · rintro (hA | ⟨j, hj, hjm, hjo, hjt⟩)
          · exact Or.inl hA
          · exact Or.inr ⟨j, hj, List.mem_cons_of_mem i hjm, hjo, hjt⟩
        · rintro (hA | ⟨j, hj, hjm, hjo, hjt⟩)
          · exact Or.inl hA
          · rcases List.mem_cons.mp hjm with hji | hjr
            · subst hji
              omega
            · exact Or.inr ⟨j, hj, hjr, hjo, hjt⟩

/-! ## `dict_del`: backward-shift deletion -/

theorem occCount_pos {E : Nat → Entry} {cap j : Nat} (hj : j < cap)
    (hocc : (E j).psl ≠ 0) : 1 ≤ occCount E cap := by
  unfold occCount
  rw [Nat.succ_le, Finset.card_pos]
  exact ⟨j, Finset.mem_filter.mpr ⟨Finset.mem_range.mpr hj, hocc⟩⟩

/-- Invariant of the backward-shift loop.  `idx` is the current hole;
its slot still holds stale occupied content that will be overwritten or
cleared.  `g` is the psl the deleted entry had at `idx`. -/
structure DSPre (cap : Nat) (E : Nat → Entry) (idx z g : Nat) : Prop where
  idx_lt : idx < cap
  z_lt : z < cap
  z_empty : (E z).psl = 0
  z_ne : z ≠ idx
  hole_occ : (E idx).psl ≠ 0
  g1 : 1 ≤ g
  g_in : g ≤ (E ((idx + (cap - 1)) % cap)).psl + 1
  g_out : (E ((idx + 1) % cap)).psl ≤ g + 1
  st_empty : ∀ i < cap, i ≠ idx → (E i).psl = 0 → (E i).key = none ∧ (E i).value = none
  st_kv : ∀ i < cap, i ≠ idx → (E i).psl ≠ 0 →
    ∃ k v, (E i).key = some k ∧ (E i).value = some v ∧ (E i).hash = hashObj k
  st_pos : ∀ i < cap, i ≠ idx → (E i).psl ≠ 0 →
    i = (usize (E i).hash % cap + ((E i).psl - 1)) % cap
  st_adj : ∀ i < cap, i ≠ idx → (i + 1) % cap ≠ idx →
    (E ((i + 1) % cap)).psl ≤ (E i).psl + 1
  st_psl : ∀ i < cap, i ≠ idx → (E i).psl ≤ cap
  st_uniq : ∀ i < cap, ∀ j < cap, i ≠ j → i ≠ idx → j ≠ idx →
    (E i).psl ≠ 0 → (E j).psl ≠ 0 →
    ∀ ki kj, (E i).key = some ki → (E j).key = some kj →
    (E i).hash = (E j).hash → ObjectsEqual ki kj = false

theorem delShift_spec {cap K : Nat} (hK : 1 ≤ K) (hcap : cap = 2 ^ K) :
    ∀ fuel (E : Nat → Entry) (idx z g : Nat),
      DSPre cap E idx z g → dist cap idx z < fuel →
      ∃ E', delShift (cap - 1) fuel E idx = some E' ∧
        Struct E' cap ∧ occCount E' cap + 1 = occCount E cap := by
  have hcap2 : 2 ≤ cap := by
    rw [hcap]
    calc 2 = 2 ^ 1 := rfl
      _ ≤ 2 ^ K := Nat.pow_le_pow_right (by omega) hK
  have hcap0 : 0 < cap := by omega
  have hmask : ∀ x : Nat, x &&& (cap - 1) = x % cap := fun x => by
    rw [hcap]
    exact Nat.and_pow_two_sub_one_eq_mod x K
  intro fuel
  induction fuel with
  | zero => intro E idx z g pre hf; omega
  | succ f ih =>
    intro E idx z g pre hf
    simp only [delShift, hmask]
    have hnxlt : (idx + 1) % cap < cap := Nat.mod_lt _ hcap0
    have hnxne : (idx + 1) % cap ≠ idx := nx_ne hcap2 pre.idx_lt
    by_cases hle : (E ((idx + 1) % cap)).psl ≤ 1
    · -- terminal: clear the hole
      rw [if_pos hle]
      refine ⟨_, rfl, ?_, ?_⟩
      · constructor
        · intro i hi hpsl
          by_cases hieq : i = idx
          · subst hieq
            rw [Function.update_same]
            exact ⟨rfl, rfl⟩
          · rw [Function.update_noteq hieq] at hpsl ⊢
            exact pre.st_empty i hi hieq hpsl
        · intro i hi hpsl
          by_cases hieq : i = idx
          · subst hieq
            rw [Function.update_same] at hpsl
            exact absurd rfl hpsl
          · rw [Function.update_noteq hieq] at hpsl ⊢
            exact pre.st_kv i hi hieq hpsl
        · intro i hi hpsl
          by_cases hieq : i = idx
          · subst hieq
            rw [Function.update_same] at hpsl
            exact absurd rfl hpsl
          · rw [Function.update_noteq hieq] at hpsl ⊢
            exact pre.st_pos i hi hieq hpsl
        · intro i hi
          have hnlt : (i + 1) % cap < cap := Nat.mod_lt _ hcap0
          by_cases hieq : i = idx
          · subst hieq
            rw [Function.update_same, Function.update_noteq hnxne]
            show (E ((i + 1) % cap)).psl ≤ 0 + 1
            omega
          · by_cases hneq : (i + 1) % cap = idx
            · rw [hneq, Function.update_same, Function.update_noteq hieq]
              show 0 ≤ (E i).psl + 1
              omega
            · rw [Function.update_noteq hneq, Function.update_noteq hieq]
              exact pre.st_adj i hi hieq hneq
        · intro i hi
          by_cases hieq : i = idx
          · subst hieq
            rw [Function.update_same]
            show 0 ≤ cap
            omega
          · rw [Function.update_noteq hieq]
            exact pre.st_psl i hi hieq
        · intro i hi j hj hij hoi hoj ki kj hki hkj hhash
          by_cases hieq : i = idx
          · subst hieq
            rw [Function.update_same] at hoi
            exact absurd rfl hoi
          · by_cases hjeq : j = idx
            · subst hjeq
              rw [Function.update_same] at hoj
              exact absurd rfl hoj
            · rw [Function.update_noteq hieq] at hoi hki
              rw [Function.update_noteq hjeq] at hoj hkj
              rw [Function.update_noteq hieq, Function.update_noteq hjeq] at hhash
              exact pre.st_uniq i hi j hj hij hieq hjeq hoi hoj ki kj hki hkj hhash
      · have hupd := occCount_update (E := E)
          { E idx with psl := 0, key := none, value := none } pre.idx_lt
        have hnew0 : ({ E idx with psl := 0, key := none, value := none } : Entry).psl = 0 := rfl
        rw [if_neg pre.hole_occ, if_pos hnew0] at hupd
        exact hupd
    · rw [if_neg hle]
      -- shift the next entry one slot back, decrementing its psl
      set p := (E ((idx + 1) % cap)).psl with hp
      have hpocc : (E ((idx + 1) % cap)).psl ≠ 0 := by omega
      have hp2 : 2 ≤ p := by omega
      have hznx : z ≠ (idx + 1) % cap := by
        intro hc
        rw [← hc] at hpocc
        exact hpocc pre.z_empty
      have hEat : ∀ i, i ≠ idx →
          (Function.update E idx { E ((idx + 1) % cap) with psl := p - 1 }) i = E i :=
        fun i hi => Function.update_noteq hi _ _
      have pre1 : DSPre cap
          (Function.update E idx { E ((idx + 1) % cap) with psl := p - 1 })
          ((idx + 1) % cap) z p := by
        refine ⟨hnxlt, pre.z_lt, ?_, hznx, ?_, by omega, ?_, ?_, ?_, ?_, ?_, ?_, ?_, ?_⟩
        · rw [hEat z pre.z_ne]
          exact pre.z_empty
        · rw [hEat _ hnxne]
          exact hpocc
        · -- g_in: the slot before the new hole is the old hole, now p - 1
          have hprev : ((idx + 1) % cap + (cap - 1)) % cap = idx :=
            prev_nx hcap0 pre.idx_lt
          rw [hprev, Function.update_same]
          show p ≤ p - 1 + 1
          omega
        · -- g_out
          by_cases hc : ((idx + 1) % cap + 1) % cap = idx
          · rw [hc, Function.update_same]
            show p - 1 ≤ p + 1
            omega
          · rw [hEat _ hc]
            exact pre.st_adj ((idx + 1) % cap) hnxlt hnxne hc
        · intro i hi hine hpsl
          by_cases hieq : i = idx
          · rw [hieq, Function.update_same] at hpsl
            have h2 : p - 1 = 0 := hpsl
            omega
          · rw [hEat i hieq] at hpsl ⊢
            exact pre.st_empty i hi hieq hpsl
        · intro i hi hine hpsl
          by_cases hieq : i = idx
          · rw [hieq, Function.update_same]
            obtain ⟨kk, vv, h1, h2, h3⟩ := pre.st_kv ((idx + 1) % cap) hnxlt hnxne hpocc
            exact ⟨kk, vv, h1, h2, h3⟩
          · rw [hEat i hieq] at hpsl ⊢
            exact pre.st_kv i hi hieq hpsl
        · intro i hi hine hpsl
          by_cases hieq : i = idx
          · rw [hieq, Function.update_same]
            show idx = (usize (E ((idx + 1) % cap)).hash % cap + (p - 1 - 1)) % cap
            have hposn := pre.st_pos ((idx + 1) % cap) hnxlt hnxne hpocc
            rw [← hp] at hposn
            apply nx_inj pre.idx_lt (Nat.mod_lt _ hcap0)
            rw [Nat.mod_add_mod]
            conv_lhs => rw [hposn]
            congr 1
            omega
          · rw [hEat i hieq] at hpsl ⊢
            exact pre.st_pos i hi hieq hpsl
        · intro i hi hine hnxine
          by_cases hieq : i = idx
          · exact absurd (by rw [hieq] : (i + 1) % cap = (idx + 1) % cap) hnxine
          · by_cases hni : (i + 1) % cap = idx
            · rw [hni, Function.update_same, hEat i hieq]
              have hiprev : i = (idx + (cap - 1)) % cap := by
                apply nx_inj hi (Nat.mod_lt _ hcap0)
                rw [hni, nx_prev hcap0 pre.idx_lt]
              show p - 1 ≤ (E i).psl + 1
              have hin := pre.g_in
              rw [← hiprev] at hin
              have hout := pre.g_out
              omega
            · rw [hEat _ hni, hEat i hieq]
              exact pre.st_adj i hi hieq hni
        · intro i hi hine
          by_cases hieq : i = idx
          · rw [hieq, Function.update_same]
            show p - 1 ≤ cap
            have := pre.st_psl ((idx + 1) % cap) hnxlt hnxne
            omega
          · rw [hEat i hieq]
            exact pre.st_psl i hi hieq
        · intro i hi j hj hij hine hjne hoi hoj ki kj hki hkj hhash
          by_cases hieq : i = idx
          · have hjidx : j ≠ idx := fun hc => hij (by rw [hieq, hc])
            rw [hieq, Function.update_same] at hki hhash
            rw [hEat j hjidx] at hoj hkj hhash
            have hki2 : (E ((idx + 1) % cap)).key = some ki := hki
            have hhash2 : (E ((idx + 1) % cap)).hash = (E j).hash := hhash
            exact pre.st_uniq ((idx + 1) % cap) hnxlt j hj
              (fun hc => hjne hc.symm) hnxne hjidx hpocc hoj ki kj hki2 hkj hhash2
          · by_cases hjeq : j = idx
            · have hiidx : i ≠ idx := hieq
              rw [hjeq, Function.update_same] at hkj hhash
              rw [hEat i hieq] at hoi hki hhash
              have hkj2 : (E ((idx + 1) % cap)).key = some kj := hkj
              have hhash2 : (E i).hash = (E ((idx + 1) % cap)).hash := hhash
              exact pre.st_uniq i hi ((idx + 1) % cap) hnxlt
                (fun hc => hine hc) hieq hnxne hoi hpocc ki kj hki hkj2 hhash2
            · rw [hEat i hieq] at hoi hki
              rw [hEat j hjeq] at hoj hkj
              rw [hEat i hieq, hEat j hjeq] at hhash
              exact pre.st_uniq i hi j hj hij hieq hjeq hoi hoj ki kj hki hkj hhash
      have hdist1 : dist cap ((idx + 1) % cap) z + 1 = dist cap idx z :=
        dist_succ pre.idx_lt pre.z_lt (Ne.symm pre.z_ne)
      obtain ⟨E', heq, hst, hocc⟩ := ih
        (Function.update E idx { E ((idx + 1) % cap) with psl := p - 1 })
        ((idx + 1) % cap) z p pre1 (by omega)
      refine ⟨E', heq, hst, ?_⟩
      have hupd := occCount_update (E := E)
        { E ((idx + 1) % cap) with psl := p - 1 } pre.idx_lt
      rw [if_neg pre.hole_occ] at hupd
      rw [if_neg (show ¬({ E ((idx + 1) % cap) with psl := p - 1 } : Entry).psl = 0 by
        show ¬(p - 1 = 0)
        omega)] at hupd
      omega

theorem delFind_notfound {E : Nat → Entry} {cap K : Nat} (hK : 1 ≤ K)
    (hcap : cap = 2 ^ K) {k : Obj}
    (habs : ∀ j < cap, ¬MatchesAt E k j) {z : Nat} (hz : z < cap)
    (hze : (E z).psl = 0) :
    ∀ fuel t idx, 1 ≤ t → idx < cap → dist cap idx z < fuel →
      delFind (cap - 1) (hashObj k) k fuel E idx t = some none := by
  have hcap0 : 0 < cap := by rw [hcap]; positivity
  have hmask : ∀ x : Nat, x &&& (cap - 1) = x % cap := fun x => by
    rw [hcap]
    exact Nat.and_pow_two_sub_one_eq_mod x K
  intro fuel
  induction fuel with
  | zero => intro t idx h1 h2 h3; omega
  | succ f ih =>
    intro t idx h1 hidxlt h3
    simp only [delFind]
    by_cases h0 : (E idx).psl = 0
    · rw [if_pos (by simp [h0])]
    · by_cases hpoor : t > (E idx).psl
      · rw [if_pos (by simp [hpoor])]
      · rw [if_neg (by
          simp only [Bool.or_eq_true, decide_eq_true_eq]
          push_neg
          exact ⟨h0, by omega⟩)]
        by_cases heq : ((E idx).hash == hashObj k && ObjectsEqualOpt (E idx).key k) = true
        · exfalso
          simp only [Bool.and_eq_true, beq_iff_eq] at heq
          exact habs idx hidxlt ⟨h0, heq.1, heq.2⟩
        · rw [if_neg heq, hmask]
          have hne : idx ≠ z := fun hc => h0 (hc ▸ hze)
          have hdist := dist_succ hidxlt hz hne
          exact ih (t + 1) ((idx + 1) % cap) (by omega) (Nat.mod_lt _ hcap0) (by omega)

theorem delFind_found {E : Nat → Entry} {cap K : Nat} (hK : 1 ≤ K)
    (hcap : cap = 2 ^ K) (st : Struct E cap) {k : Obj} {j : Nat}
    (hj : j < cap) (hm : MatchesAt E k j) {z : Nat} (hz : z < cap)
    (hze : (E z).psl = 0) :
    ∀ fuel t idx, 1 ≤ t → t ≤ (E j).psl → (E j).psl + 1 - t ≤ fuel →
      idx = (usize (hashObj k) % cap + (t - 1)) % cap →
      ∃ E', delFind (cap - 1) (hashObj k) k fuel E idx t = some (some E') ∧
        Struct E' cap ∧ occCount E' cap + 1 = occCount E cap := by
  have hcap0 : 0 < cap := by rw [hcap]; positivity
  have hmask : ∀ x : Nat, x &&& (cap - 1) = x % cap := fun x => by
    rw [hcap]
    exact Nat.and_pow_two_sub_one_eq_mod x K
  obtain ⟨hocc, hh, he⟩ := hm
  have hbeq : usize (hashObj k) % cap = usize (E j).hash % cap := by rw [hh]
  intro fuel
  induction fuel with
  | zero => intro t idx h1 h2 h3 hidx; omega
  | succ f ih =>
    intro t idx h1 h2 h3 hidx
    have hidxlt : idx < cap := by
      rw [hidx]
      exact Nat.mod_lt _ hcap0
    have hrich : t ≤ (E idx).psl := by
      rw [hidx, hbeq]
      exact richness st hj hocc t h1 h2
    simp only [delFind]
    rw [if_neg (by
      simp only [Bool.or_eq_true, decide_eq_true_eq]
      push_neg
      exact ⟨by omega, by omega⟩)]
    by_cases heq : ((E idx).hash == hashObj k && ObjectsEqualOpt (E idx).key k) = true
    · rw [if_pos heq]
      simp only [Bool.and_eq_true, beq_iff_eq] at heq
      have hij : idx = j :=
        matches_unique st hidxlt hj ⟨by omega, heq.1, heq.2⟩ ⟨hocc, hh, he⟩
      subst hij
      -- run the backward-shift loop from the matched slot
      have hzneidx : z ≠ idx := fun hc => hocc (hc ▸ hze)
      have hpre : DSPre cap E idx z (E idx).psl := by
        refine ⟨hidxlt, hz, hze, hzneidx, hocc, by omega, ?_, ?_,
          (fun i hi _ hp => st.empty_none i hi hp),
          (fun i hi _ hp => st.occ_kv i hi hp),
          (fun i hi _ hp => st.pos i hi hp),
          (fun i hi _ _ => st.adj i hi),
          (fun i hi _ => st.psl_le i hi),
          (fun i hi j' hj' hij' _ _ => st.uniq i hi j' hj' hij')⟩
        · -- g_in from adj at the predecessor slot
          have hprevlt : (idx + (cap - 1)) % cap < cap := Nat.mod_lt _ hcap0
          have hadj := st.adj ((idx + (cap - 1)) % cap) hprevlt
          rw [nx_prev hcap0 hidxlt] at hadj
          exact hadj
        · exact st.adj idx hidxlt
      have hdfuel : dist cap idx z < cap - 1 + 2 := by
        have := dist_lt hcap0 idx z
        omega
      obtain ⟨E', heq', hst', hocc'⟩ :=
        delShift_spec hK hcap (cap - 1 + 2) E idx z (E idx).psl hpre hdfuel
      rw [heq']
      exact ⟨E', rfl, hst', hocc'⟩
    · rw [if_neg heq]
      have htp : t ≠ (E j).psl := by
        intro hteq
        apply heq
        have hidxj : idx = j := by
          rw [hidx, hbeq, hteq]
          exact (st.pos j hj hocc).symm
        rw [hidxj]
        simp only [Bool.and_eq_true, beq_iff_eq]
        exact ⟨hh, he⟩
      rw [hmask]
      have hstep : (idx + 1) % cap = (usize (hashObj k) % cap + (t + 1 - 1)) % cap := by
        rw [hidx, Nat.mod_add_mod]
        congr 1
        omega
      exact ih (t + 1) ((idx + 1) % cap) (by omega) (by omega) (by omega) hstep

/-! ## Top-level dictionary operation specifications -/

theorem Inv_allocDict : Inv allocDict := by
  refine ⟨⟨1, by omega, rfl⟩, rfl, rfl, (occCount_empty 2).symm, by
    show 0 ≤ 2 * DICT_LOAD_FACTOR / 100
    omega, Struct_empty 2⟩

theorem threshold_lt_cap {cap : Nat} (h : 1 ≤ cap) :
    cap * DICT_LOAD_FACTOR / 100 < cap := by
  rw [Nat.div_lt_iff_lt_mul (by omega : 0 < 100)]
  have : cap * DICT_LOAD_FACTOR = cap * 85 := rfl
  omega

theorem div_add_div_le {x y n : Nat} (hn : 0 < n) :
    x / n + y / n ≤ (x + y) / n := by
  rw [Nat.le_div_iff_mul_le hn, Nat.add_mul]
  have h1 : x / n * n ≤ x := Nat.div_mul_le_self x n
  have h2 : y / n * n ≤ y := Nat.div_mul_le_self y n
  omega

theorem dictResize_spec {d : NDict} (inv : Inv d) :
    ∃ d', dictResize d (d.capacity * 2) = some d' ∧
      d'.capacity = d.capacity * 2 ∧
      d'.mask = d'.capacity - 1 ∧
      d'.threshold = d'.capacity * DICT_LOAD_FACTOR / 100 ∧
      d'.count = d.count ∧
      occCount d'.entries d'.capacity = d'.count ∧
      Struct d'.entries d'.capacity ∧
      (∀ q, HasTrip d'.entries d'.capacity q ↔ HasTrip d.entries d.capacity q) := by
  obtain ⟨K, hK, hcapK⟩ := inv.pow2
  have hcappos : 0 < d.capacity := by rw [hcapK]; positivity
  have hcap' : d.capacity * 2 = 2 ^ (K + 1) := by rw [hcapK]; ring
  have hlt : d.capacity < d.capacity * 2 := by omega
  obtain ⟨E', cnt', heq, st', hocc', hcnt', htrip'⟩ :=
    resizeFold_spec (by omega : 1 ≤ K + 1) hcap' d.entries d.capacity inv.struct
      (List.range d.capacity) (fun _ => emptyEntry) 0
      (fun i hi => List.mem_range.mp hi) (List.nodup_range d.capacity)
      (Struct_empty _) (occCount_empty _)
      (by rw [occCount_empty, List.length_range]; omega) hlt
      (by rintro q ⟨j, hj, hocc, -⟩; exact absurd rfl hocc)
  refine ⟨{ entries := E', capacity := d.capacity * 2, count := cnt',
            mask := d.capacity * 2 - 1,
            threshold := d.capacity * 2 * DICT_LOAD_FACTOR / 100 },
    ?_, rfl, rfl, rfl, ?_, hocc', st', ?_⟩
  · simp only [dictResize]
    rw [heq]
  · show cnt' = d.count
    rw [hcnt', inv.count_eq, occCount_eq_countP, Nat.zero_add]
  · intro q
    rw [htrip' q]
    constructor
    · rintro (⟨j, hj, hocc, -⟩ | ⟨j, hj, hmem, hocc, htr⟩)
      · exact absurd rfl hocc
      · exact ⟨j, hj, hocc, htr.1, htr.2.1, htr.2.2⟩
    · rintro ⟨j, hj, hocc, h1, h2, h3⟩
      exact Or.inr ⟨j, hj, List.mem_range.mpr hj, hocc, h1, h2, h3⟩

theorem dictGetQ_found {d : NDict} (inv : Inv d) {k : Obj} {j : Nat}
    (hj : j < d.capacity) (hm : MatchesAt d.entries k j) :
    dictGetQ d k = some (d.entries j).value := by
  obtain ⟨K, hK, hcapK⟩ := inv.pow2
  have hcap0 : 0 < d.capacity := by rw [hcapK]; positivity
  have hmask : usize (hashObj k) &&& (d.capacity - 1) = usize (hashObj k) % d.capacity := by
    rw [hcapK]
    exact Nat.and_pow_two_sub_one_eq_mod _ K
  have hocc := hm.1
  show getLoop d.mask (hashObj k) k (d.capacity + 1) d.entries
    (usize (hashObj k) &&& d.mask) 1 = some (d.entries j).value
  rw [inv.mask_eq, hmask]
  exact getLoop_found hK hcapK inv.struct hj hm 1 (d.capacity + 1) _
    (by omega) (by omega)
    (by have := inv.struct.psl_le j hj; omega)
    (by rw [show (1 : Nat) - 1 = 0 from rfl, Nat.add_zero,
          Nat.mod_mod_of_dvd _ (dvd_refl d.capacity)])

theorem dictGetQ_notfound {d : NDict} (inv : Inv d) {k : Obj}
    (habs : ¬ContainsEq d.entries d.capacity k) :
    dictGetQ d k = some none := by
  obtain ⟨K, hK, hcapK⟩ := inv.pow2
  have hcap0 : 0 < d.capacity := by rw [hcapK]; positivity
  have hmask : usize (hashObj k) &&& (d.capacity - 1) = usize (hashObj k) % d.capacity := by
    rw [hcapK]
    exact Nat.and_pow_two_sub_one_eq_mod _ K
  have hthr : d.threshold < d.capacity := inv.thr_eq ▸ threshold_lt_cap (by omega)
  obtain ⟨z, hz, hze⟩ := occCount_lt_of_empty
    (show occCount d.entries d.capacity < d.capacity by
      have h1 := inv.count_eq
      have h2 := inv.count_le
      omega)
  have habs' : ∀ j < d.capacity, ¬MatchesAt d.entries k j := by
    intro j hjlt hmj
    exact habs ⟨j, hjlt, hmj⟩
  show getLoop d.mask (hashObj k) k (d.capacity + 1) d.entries
    (usize (hashObj k) &&& d.mask) 1 = some none
  rw [inv.mask_eq, hmask]
  exact getLoop_notfound hK hcapK inv.struct habs' hz hze (d.capacity + 1) 1 _
    (by omega) (Nat.mod_lt _ hcap0)
    (by have := dist_lt hcap0 (usize (hashObj k) % d.capacity) z; omega)

/-- Replacing the value of an occupied slot preserves the structural
invariant (psl, hash and key are untouched). -/
theorem Struct_set_value {E : Nat → Entry} {cap : Nat} (st : Struct E cap)
    {j : Nat} (hj : j < cap) (hocc : (E j).psl ≠ 0) (v : Obj) :
    Struct (Function.update E j { E j with value := some v }) cap := by
  have hps : ∀ i, (Function.update E j { E j with value := some v } i).psl = (E i).psl := by
    intro i
    by_cases hij : i = j
    · rw [hij, Function.update_same]
    · rw [Function.update_noteq hij]
  have hhs : ∀ i, (Function.update E j { E j with value := some v } i).hash = (E i).hash := by
    intro i
    by_cases hij : i = j
    · rw [hij, Function.update_same]
    · rw [Function.update_noteq hij]
  have hks : ∀ i, (Function.update E j { E j with value := some v } i).key = (E i).key := by
    intro i
    by_cases hij : i = j
    · rw [hij, Function.update_same]
    · rw [Function.update_noteq hij]
  constructor
  · intro i hi hpsl
    rw [hps] at hpsl
    by_cases hij : i = j
    · exact absurd (hij ▸ hpsl) hocc
    · rw [Function.update_noteq hij]
      exact st.empty_none i hi hpsl
  · intro i hi hpsl
    rw [hps] at hpsl
    obtain ⟨ki, vi, h1, h2, h3⟩ := st.occ_kv i hi hpsl
    by_cases hij : i = j
    · subst hij
      rw [Function.update_same]
      exact ⟨ki, v, h1, rfl, h3⟩
    · rw [Function.update_noteq hij]
      exact ⟨ki, vi, h1, h2, h3⟩
  · intro i hi hpsl
    rw [hps] at hpsl
    rw [hps, hhs]
    exact st.pos i hi hpsl
  · intro i hi
    rw [hps, hps]
    exact st.adj i hi
  · intro i hi
    rw [hps]
    exact st.psl_le i hi
  · intro i hi j' hj' hij hoi hoj ki kj hki hkj hhash
    rw [hps] at hoi hoj
    rw [hks] at hki hkj
    rw [hhs, hhs] at hhash
    exact st.uniq i hi j' hj' hij hoi hoj ki kj hki hkj hhash

/-- `MatchesAt` ignores values, so a value update does not change it. -/
theorem MatchesAt_set_value {E : Nat → Entry} {j : Nat} (v : Obj)
    (k' : Obj) (i : Nat) :
    MatchesAt (Function.update E j { E j with value := some v }) k' i ↔
      MatchesAt E k' i := by
  unfold MatchesAt
  by_cases hij : i = j
  · subst hij
    rw [Function.update_same]
  · rw [Function.update_noteq hij]

/-- A slot matching `k` also matches any key `ObjectsEqual` to `k`
(hashes agree by `hashObj_congr`, keys by transitivity). -/
theorem MatchesAt_congr {E : Nat → Entry} {k k' : Obj} {j : Nat}
    (hkk : ObjectsEqual k k' = true) (hm : MatchesAt E k j) :
    MatchesAt E k' j := by
  obtain ⟨hocc, hh, he⟩ := hm
  refine ⟨hocc, by rw [hh]; exact hashObj_congr hkk, ?_⟩
  cases hkey : (E j).key with
  | none =>
    rw [hkey] at he
    exact absurd he (by simp [ObjectsEqualOpt])
  | some kj =>
    rw [hkey] at he
    show ObjectsEqual kj k' = true
    exact ObjectsEqual_trans he hkk

theorem ContainsEq_congr {E : Nat → Entry} {cap : Nat} {k k' : Obj}
    (hkk : ObjectsEqual k k' = true) (h : ContainsEq E cap k) :
    ContainsEq E cap k' := by
  obtain ⟨j, hj, hm⟩ := h
  exact ⟨j, hj, MatchesAt_congr hkk hm⟩

/-- Two structurally valid tables holding the same triples contain the
same keys. -/
theorem ContainsEq_of_trips {E E' : Nat → Entry} {cap cap' : Nat}
    (st : Struct E cap) (st' : Struct E' cap')
    (ht : ∀ q, HasTrip E' cap' q ↔ HasTrip E cap q) (k : Obj) :
    ContainsEq E' cap' k ↔ ContainsEq E cap k := by
  rw [ContainsEq_iff_trip st k, ContainsEq_iff_trip st' k]
  constructor
  · rintro ⟨q, hq, h1, h2⟩
    exact ⟨q, (ht q).mp hq, h1, h2⟩
  · rintro ⟨q, hq, h1, h2⟩
    exact ⟨q, (ht q).mpr hq, h1, h2⟩

/-- `dict_set` on an invariant-satisfying dictionary: it succeeds, keeps
the invariant, bumps `count` exactly when no equal key was present,
makes every key equal to `k` look up `v`, and the keys present afterwards
are the old ones plus everything equal to `k`. -/
theorem dictSet_spec {d : NDict} (inv : Inv d) (k v : Obj) :
    ∃ d', dictSet d k v = some d' ∧ Inv d' ∧
      d'.count = d.count + (if ContainsEq d.entries d.capacity k then 0 else 1) ∧
      (∀ k', ObjectsEqual k' k = true → dictGetQ d' k' = some (some v)) ∧
      (∀ k', ContainsEq d'.entries d'.capacity k' ↔
        (ContainsEq d.entries d.capacity k' ∨
         (hashObj k' = hashObj k ∧ ObjectsEqual k k' = true))) := by
  -- Step 1: the resize-or-not dictionary d1.
  obtain ⟨d1, hd1eq, hinv1, hcnt1, hroom, htrips1⟩ :
      ∃ d1, (if d.count ≥ d.threshold then dictResize d (d.capacity * 2)
              else some d) = some d1 ∧
        Inv d1 ∧ d1.count = d.count ∧ d1.count + 1 ≤ d1.threshold ∧
        (∀ q, HasTrip d1.entries d1.capacity q ↔
          HasTrip d.entries d.capacity q) := by
    obtain ⟨K, hK, hcapK⟩ := inv.pow2
    have hcap2 : 2 ≤ d.capacity := by
      rw [hcapK]
      calc 2 = 2 ^ 1 := rfl
        _ ≤ 2 ^ K := Nat.pow_le_pow_right (by omega) hK
    by_cases hthr : d.count ≥ d.threshold
    · obtain ⟨d', heq, hc, hm, ht, hcnt, hocc, hst, htr⟩ := dictResize_spec inv
      have hroom' : d'.count + 1 ≤ d'.threshold := by
        have hceq : d.count = d.capacity * DICT_LOAD_FACTOR / 100 := by
          have h1 := inv.count_le
          have h2 := inv.thr_eq
          omega
        have h85 : 1 ≤ d.capacity * DICT_LOAD_FACTOR / 100 := by
          have : 2 * DICT_LOAD_FACTOR / 100 ≤ d.capacity * DICT_LOAD_FACTOR / 100 :=
            Nat.div_le_div_right (Nat.mul_le_mul_right _ hcap2)
          have h2 : 2 * DICT_LOAD_FACTOR / 100 = 1 := rfl
          omega
        have hdsum : d.capacity * DICT_LOAD_FACTOR / 100 +
            d.capacity * DICT_LOAD_FACTOR / 100 ≤
            d.capacity * 2 * DICT_LOAD_FACTOR / 100 := by
          have := div_add_div_le (x := d.capacity * DICT_LOAD_FACTOR)
            (y := d.capacity * DICT_LOAD_FACTOR) (n := 100) (by omega)
          have harith : d.capacity * DICT_LOAD_FACTOR + d.capacity * DICT_LOAD_FACTOR
              = d.capacity * 2 * DICT_LOAD_FACTOR := by ring
          rw [harith] at this
          exact this
        rw [ht, hc, hcnt, hceq]
        omega
      refine ⟨d', by rw [if_pos hthr]; exact heq, ?_, hcnt, hroom', htr⟩
      exact ⟨⟨K + 1, by omega, by rw [hc, hcapK]; ring⟩, hc ▸ hm, hc ▸ ht,
        hocc.symm, by omega, hst⟩
    · refine ⟨d, by rw [if_neg hthr], inv, rfl, by omega, fun q => Iff.rfl⟩
  obtain ⟨K1, hK1, hcapK1⟩ := hinv1.pow2
  have hcap1pos : 0 < d1.capacity := by rw [hcapK1]; positivity
  have hmaskx : ∀ x : Nat, x &&& (d1.capacity - 1) = x % d1.capacity := fun x => by
    rw [hcapK1]
    exact Nat.and_pow_two_sub_one_eq_mod x K1
  have hthrlt : d1.threshold < d1.capacity :=
    hinv1.thr_eq ▸ threshold_lt_cap (by omega)
  have hcontiff : ∀ k', ContainsEq d1.entries d1.capacity k' ↔
      ContainsEq d.entries d.capacity k' := fun k' =>
    ContainsEq_of_trips inv.struct hinv1.struct htrips1 k'
  have hidx : usize (hashObj k) &&& d1.mask =
      (usize (hashObj k) % d1.capacity + (1 - 1)) % d1.capacity := by
    rw [hinv1.mask_eq, hmaskx, show (1 : Nat) - 1 = 0 from rfl, Nat.add_zero,
      Nat.mod_mod_of_dvd _ (dvd_refl d1.capacity)]
  by_cases hctn : ContainsEq d.entries d.capacity k
  · -- Update case: a matching slot exists; only its value changes.
    obtain ⟨j, hj, hm⟩ := (hcontiff k).mpr hctn
    have hloop := setLoop_update hK1 hcapK1 hinv1.struct k v hj hm
      (d1.capacity + 1) 1 ⟨some k, some v, hashObj k, 1⟩
      (usize (hashObj k) &&& d1.mask) (le_refl 1) (Nat.pos_of_ne_zero hm.1)
      (by have := hinv1.struct.psl_le j hj; omega) rfl hidx
    set E' := Function.update d1.entries j
      { d1.entries j with value := some v } with hE'
    have hset : dictSet d k v = some { d1 with entries := E', count := d1.count } := by
      unfold dictSet
      rw [hd1eq]
      show (match setLoop d1.mask (hashObj k) k v (d1.capacity + 1) d1.entries
          ⟨some k, some v, hashObj k, 1⟩ (usize (hashObj k) &&& d1.mask) with
        | none => none
        | some (E, inserted) => some { d1 with entries := E, count := if inserted then d1.count + 1 else d1.count }) =
        some { d1 with entries := E', count := d1.count }
      rw [hinv1.mask_eq] at hloop ⊢
      rw [hloop]
      rfl
    have hps : ∀ i < d1.capacity, (d1.entries i).psl = (E' i).psl := by
      intro i hi
      by_cases hij : i = j
      · rw [hE', hij, Function.update_same]
      · rw [hE', Function.update_noteq hij]
    have hst' : Struct E' d1.capacity := Struct_set_value hinv1.struct hj hm.1 v
    have hinv' : Inv { d1 with entries := E', count := d1.count } :=
      ⟨⟨K1, hK1, hcapK1⟩, hinv1.mask_eq, hinv1.thr_eq,
        by show d1.count = occCount E' d1.capacity
           rw [← occCount_congr hps]; exact hinv1.count_eq,
        by show d1.count ≤ d1.threshold; omega, hst'⟩
    refine ⟨_, hset, hinv', ?_, ?_, ?_⟩
    · show d1.count = d.count + (if ContainsEq d.entries d.capacity k then 0 else 1)
      rw [if_pos hctn]
      omega
    · intro k' hkk
      have hm' : MatchesAt E' k' j := by
        rw [hE', MatchesAt_set_value]
        exact MatchesAt_congr (by rw [ObjectsEqual_symm]; exact hkk) hm
      have := dictGetQ_found hinv' (show j < d1.capacity from hj) hm'
      rw [this]
      show some (E' j).value = some (some v)
      rw [hE', Function.update_same]
    · intro k'
      show ContainsEq E' d1.capacity k' ↔ _
      have hiff1 : ContainsEq E' d1.capacity k' ↔
          ContainsEq d1.entries d1.capacity k' := by
        constructor
        · rintro ⟨i, hi, hmi⟩
          rw [hE', MatchesAt_set_value] at hmi
          exact ⟨i, hi, hmi⟩
        · rintro ⟨i, hi, hmi⟩
          refine ⟨i, hi, ?_⟩
          rw [hE', MatchesAt_set_value]
          exact hmi
      rw [hiff1, hcontiff k']
      constructor
      · exact Or.inl
      · rintro (h | ⟨h1, h2⟩)
        · exact h
        · exact ContainsEq_congr h2 hctn
  · -- Insert case: no matching slot; the Robin Hood loop fills one.
    have hctn1 : ¬ContainsEq d1.entries d1.capacity k := fun h =>
      hctn ((hcontiff k).mp h)
    have hocc1 : occCount d1.entries d1.capacity < d1.capacity := by
      have := hinv1.count_eq
      omega
    obtain ⟨z, hz, hze⟩ := occCount_lt_of_empty hocc1
    have hnomatch : ∀ j < d1.capacity, (d1.entries j).psl ≠ 0 →
        (d1.entries j).hash = hashObj k →
        ObjectsEqualOpt (d1.entries j).key k = false := by
      intro j hjlt hocc hh
      obtain ⟨kj, vj, hkj, -, -⟩ := hinv1.struct.occ_kv j hjlt hocc
      rw [hkj]
      show ObjectsEqual kj k = false
      cases hb : ObjectsEqual kj k
      · rfl
      · exact absurd ⟨j, hjlt, hocc, hh, by rw [hkj]; exact hb⟩ hctn1
    have pre : SLPre d1.capacity (hashObj k) k d1.entries
        ⟨some k, some v, hashObj k, 1⟩ (usize (hashObj k) &&& d1.mask) z :=
      { st := hinv1.struct
        idx_lt := by rw [hinv1.mask_eq, hmaskx]; exact Nat.mod_lt _ hcap1pos
        z_lt := hz
        z_empty := hze
        ekey := ⟨k, rfl, rfl⟩
        eval := ⟨v, rfl⟩
        epsl1 := le_refl 1
        pos := by rw [hinv1.mask_eq, hmaskx] at hidx ⊢; exact hidx
        preadj := Or.inl rfl
        carry_uniq := by
          intro j hjlt hocc kj hkj hh ck hck
          have := hnomatch j hjlt hocc hh
          rw [hkj] at this
          cases hck
          exact this
        noeq_future := fun j hjlt _ hocc hh => hnomatch j hjlt hocc hh
        psl_bound := by
          have := dist_lt hcap1pos (usize (hashObj k) &&& d1.mask) z
          show 1 + dist d1.capacity (usize (hashObj k) &&& d1.mask) z ≤ d1.capacity
          omega }
    obtain ⟨E', hloop, hst', hocc', htrip'⟩ :=
      setLoop_insert hK1 hcapK1 (hashObj k) k v (d1.capacity + 1) d1.entries
        ⟨some k, some v, hashObj k, 1⟩ (usize (hashObj k) &&& d1.mask) z pre
        (by have := dist_lt hcap1pos (usize (hashObj k) &&& d1.mask) z; omega)
    have hset : dictSet d k v =
        some { d1 with entries := E', count := d1.count + 1 } := by
      unfold dictSet
      rw [hd1eq]
      show (match setLoop d1.mask (hashObj k) k v (d1.capacity + 1) d1.entries
          ⟨some k, some v, hashObj k, 1⟩ (usize (hashObj k) &&& d1.mask) with
        | none => none
        | some (E, inserted) => some { d1 with entries := E, count := if inserted then d1.count + 1 else d1.count }) =
        some { d1 with entries := E', count := d1.count + 1 }
      rw [hinv1.mask_eq] at hloop ⊢
      rw [hloop]
      rfl
    have hinv' : Inv { d1 with entries := E', count := d1.count + 1 } :=
      ⟨⟨K1, hK1, hcapK1⟩, hinv1.mask_eq, hinv1.thr_eq,
        by show d1.count + 1 = occCount E' d1.capacity
           rw [hocc', ← hinv1.count_eq],
        by show d1.count + 1 ≤ d1.threshold; omega, hst'⟩
    have hnewtrip : HasTrip E' d1.capacity (hashObj k, k, v) :=
      (htrip' (hashObj k, k, v)).mpr (Or.inr ⟨rfl, rfl, rfl⟩)
    refine ⟨_, hset, hinv', ?_, ?_, ?_⟩
    · show d1.count + 1 = d.count + (if ContainsEq d.entries d.capacity k then 0 else 1)
      rw [if_neg hctn]
      omega
    · intro k' hkk
      obtain ⟨j, hj, hjocc, hjh, hjk, hjv⟩ := hnewtrip
      have hm' : MatchesAt E' k' j := by
        refine ⟨hjocc, ?_, ?_⟩
        · rw [hjh]
          exact (hashObj_congr hkk).symm
        · rw [hjk]
          show ObjectsEqual k k' = true
          rw [ObjectsEqual_symm]
          exact hkk
      have := dictGetQ_found hinv' (show j < d1.capacity from hj) hm'
      rw [this, hjv]
    · intro k'
      show ContainsEq E' d1.capacity k' ↔ _
      rw [ContainsEq_iff_trip hst' k']
      constructor
      · rintro ⟨q, hq, hqh, hqe⟩
        rcases (htrip' q).mp hq with hold | hnew
        · exact Or.inl ((hcontiff k').mp
            ((ContainsEq_iff_trip hinv1.struct k').mpr ⟨q, hold, hqh, hqe⟩))
        · obtain ⟨h1, h2, h3⟩ := hnew
          refine Or.inr ⟨?_, ?_⟩
          · rw [← hqh, ← h1]
          · have hq21 : q.2.1 = k := by
              have := h2
              simp only [Option.some.injEq] at this
              exact this.symm
            rw [← hq21]
            exact hqe
      · rintro (h | ⟨h1, h2⟩)
        · obtain ⟨q, hq, hqh, hqe⟩ :=
            (ContainsEq_iff_trip hinv1.struct k').mp ((hcontiff k').mpr h)
          exact ⟨q, (htrip' q).mpr (Or.inl hq), hqh, hqe⟩
        · exact ⟨(hashObj k, k, v), hnewtrip, h1.symm, h2⟩

/-- `dict_del` on an invariant-satisfying dictionary: it succeeds, keeps
the invariant, returns `true` exactly when an equal key was present, and
decrements `count` exactly in that case. -/
theorem dictDel_spec {d : NDict} (inv : Inv d) (k : Obj) :
    ∃ d' b, dictDel d k = some (d', b) ∧ Inv d' ∧
      (b = true ↔ ContainsEq d.entries d.capacity k) ∧
      d'.count + (if b then 1 else 0) = d.count ∧
      d'.capacity = d.capacity := by
  obtain ⟨K, hK, hcapK⟩ := inv.pow2
  have hcap0 : 0 < d.capacity := by rw [hcapK]; positivity
  have hmaskx : ∀ x : Nat, x &&& (d.capacity - 1) = x % d.capacity := fun x => by
    rw [hcapK]
    exact Nat.and_pow_two_sub_one_eq_mod x K
  have hthrlt : d.threshold < d.capacity := inv.thr_eq ▸ threshold_lt_cap (by omega)
  obtain ⟨z, hz, hze⟩ := occCount_lt_of_empty
    (show occCount d.entries d.capacity < d.capacity by
      have h1 := inv.count_eq
      have h2 := inv.count_le
      omega)
  have hidx : usize (hashObj k) &&& d.mask =
      (usize (hashObj k) % d.capacity + (1 - 1)) % d.capacity := by
    rw [inv.mask_eq, hmaskx, show (1 : Nat) - 1 = 0 from rfl, Nat.add_zero,
      Nat.mod_mod_of_dvd _ (dvd_refl d.capacity)]
  by_cases hctn : ContainsEq d.entries d.capacity k
  · obtain ⟨j, hj, hm⟩ := hctn
    obtain ⟨E', hfind, hst', hocc'⟩ := delFind_found hK hcapK inv.struct hj hm hz hze
      (d.capacity + 1) 1 (usize (hashObj k) &&& d.mask) (le_refl 1)
      (Nat.pos_of_ne_zero hm.1)
      (by have := inv.struct.psl_le j hj; omega) hidx
    have hdel : dictDel d k =
        some ({ d with entries := E', count := d.count - 1 }, true) := by
      unfold dictDel
      show (match delFind d.mask (hashObj k) k (d.capacity + 1) d.entries
          (usize (hashObj k) &&& d.mask) 1 with
        | none => none
        | some none => some (d, false)
        | some (some E) => some ({ d with entries := E, count := d.count - 1 }, true)) =
        some ({ d with entries := E', count := d.count - 1 }, true)
      rw [inv.mask_eq] at hfind ⊢
      rw [hfind]
    have hcnt : d.count = occCount d.entries d.capacity := inv.count_eq
    refine ⟨_, _, hdel, ?_, iff_of_true rfl ⟨j, hj, hm⟩, ?_, rfl⟩
    · refine ⟨⟨K, hK, hcapK⟩, inv.mask_eq, inv.thr_eq, ?_, ?_, hst'⟩
      · show d.count - 1 = occCount E' d.capacity
        omega
      · show d.count - 1 ≤ d.threshold
        have := inv.count_le
        omega
    · show d.count - 1 + 1 = d.count
      omega
  · have habs : ∀ j < d.capacity, ¬MatchesAt d.entries k j := fun j hjlt hmj =>
      hctn ⟨j, hjlt, hmj⟩
    have hfind := delFind_notfound hK hcapK habs hz hze (d.capacity + 1) 1
      (usize (hashObj k) &&& d.mask)
      (le_refl 1)
      (by rw [inv.mask_eq, hmaskx]; exact Nat.mod_lt _ hcap0)
      (by have := dist_lt hcap0 (usize (hashObj k) &&& d.mask) z; omega)
    have hdel : dictDel d k = some (d, false) := by
      unfold dictDel
      show (match delFind d.mask (hashObj k) k (d.capacity + 1) d.entries
          (usize (hashObj k) &&& d.mask) 1 with
        | none => none
        | some none => some (d, false)
        | some (some E) => some ({ d with entries := E, count := d.count - 1 }, true)) =
        some (d, false)
      rw [inv.mask_eq] at hfind ⊢
      rw [hfind]
    exact ⟨d, false, hdel, inv, iff_of_false (by simp) hctn, by simp, rfl⟩

/-- Every state reachable through the runtime's dictionary operations
satisfies the invariant. -/
theorem Reachable_inv {d : NDict} (h : Reachable d) : Inv d := by
  induction h with
  | alloc => exact Inv_allocDict
  | set hr hset ih =>
    obtain ⟨d2, heq, hinv, -⟩ := dictSet_spec ih _ _
    rw [hset] at heq
    cases heq
    exact hinv
  | del hr hdel ih =>
    obtain ⟨d2, b2, heq, hinv, -⟩ := dictDel_spec ih _
    rw [hdel] at heq
    cases heq
    exact hinv
  | resize hr hres ih =>
    rename_i dp dq
    obtain ⟨d2, heq, hc, hm, ht, hcnt, hocc, hst, -⟩ := dictResize_spec ih
    rw [hres] at heq
    cases heq
    obtain ⟨K, hK, hcapK⟩ := ih.pow2
    refine ⟨⟨K + 1, by omega, by rw [hc, hcapK]; ring⟩, hc ▸ hm, hc ▸ ht,
      hocc.symm, ?_, hst⟩
    rw [hcnt, ht, hc]
    calc dp.count ≤ dp.threshold := ih.count_le
      _ = dp.capacity * DICT_LOAD_FACTOR / 100 := ih.thr_eq
      _ ≤ dp.capacity * 2 * DICT_LOAD_FACTOR / 100 :=
        Nat.div_le_div_right (by nlinarith)

/-! ## Claim support: floor division / modulo -/

theorem neg_tmod (a b : Int) : (-a).tmod b = -(a.tmod b) := by
  have h1 := Int.tdiv_add_tmod (-a) b
  have h2 := Int.tdiv_add_tmod a b
  rw [Int.neg_tdiv] at h1
  linarith

/-- The truncated remainder has the dividend's sign (when nonzero). -/
theorem tmod_neg_iff {a b : Int} (hm : a.tmod b ≠ 0) :
    a.tmod b < 0 ↔ a < 0 := by
  rcases le_or_lt 0 a with ha | ha
  · have := Int.tmod_nonneg b ha
    omega
  · have h0 : (0 : Int) ≤ -a := by omega
    have h1 := Int.tmod_nonneg b h0
    have h2 : a.tmod b = -((-a).tmod b) := by
      rw [neg_tmod, neg_neg]
    omega

/-- The truncated remainder is smaller than `|b|` in absolute value. -/
theorem tmod_abs_lt {a b : Int} (hb : b ≠ 0) :
    -|b| < a.tmod b ∧ a.tmod b < |b| := by
  have habs : a.tmod b = a.tmod |b| := by
    rcases le_or_lt 0 b with h | h
    · rw [abs_of_nonneg h]
    · rw [abs_of_neg h]
      exact (Int.tmod_neg a b).symm
  have hpos : (0 : Int) < |b| := by positivity
  rcases le_or_lt 0 a with ha | ha
  · have h1 := Int.tmod_nonneg |b| ha
    have h2 := Int.tmod_lt_of_pos a hpos
    omega
  · have h0 : (0 : Int) ≤ -a := by omega
    have h1 := Int.tmod_nonneg |b| h0
    have h2 := Int.tmod_lt_of_pos (-a) hpos
    have h3 : a.tmod |b| = -((-a).tmod |b|) := by
      rw [neg_tmod, neg_neg]
    omega

/-- C5: for int-tagged operands with nonzero divisor, `NgFloorDiv` and
`NgMod` satisfy the division identity `q·b + r = a`, the remainder is
zero or has the divisor's sign, and the four concrete floor divisions of
the specification hold. -/
theorem c5_floordiv_mod (a b : Int) (hb : b ≠ 0) :
    (∃ q r, NgFloorDiv a b = some q ∧ NgMod a b = some r ∧
      q * b + r = a ∧ (r = 0 ∨ (0 < b ∧ 0 < r) ∨ (b < 0 ∧ r < 0))) ∧
    NgFloorDiv 7 2 = some 3 ∧ NgFloorDiv (-7) 2 = some (-4) ∧
    NgFloorDiv 7 (-2) = some (-4) ∧ NgFloorDiv (-7) (-2) = some 3 := by
  refine ⟨?_, by decide, by decide, by decide, by decide⟩
  have hid := Int.tdiv_add_tmod a b
  have hbounds := tmod_abs_lt (a := a) hb
  simp only [NgFloorDiv, NgMod]
  rw [if_neg hb, if_neg hb]
  by_cases hm : a.tmod b = 0
  · refine ⟨a.tdiv b, a.tmod b, ?_, ?_, by linarith, Or.inl hm⟩
    · rw [if_neg (by rintro ⟨h1, -⟩; exact h1 hm)]
    · rw [if_neg (by rintro ⟨h1, -⟩; exact h1 hm)]
  · have hsign := tmod_neg_iff hm
    by_cases hsame : (a < 0) ↔ (b < 0)
    · refine ⟨a.tdiv b, a.tmod b, ?_, ?_, by linarith, ?_⟩
      · rw [if_neg (by rintro ⟨-, h2⟩; exact h2 hsame)]
      · rw [if_neg (by
          rintro ⟨-, h2⟩
          exact h2 (by rw [hsign]; exact hsame.symm))]
      · rcases lt_trichotomy b 0 with h | h | h
        · refine Or.inr (Or.inr ⟨h, ?_⟩)
          rw [hsign, hsame]
          exact h
        · exact absurd h hb
        · refine Or.inr (Or.inl ⟨h, ?_⟩)
          have : ¬a < 0 := fun hc => by omega
          have : ¬a.tmod b < 0 := fun hc => this (hsign.mp hc)
          omega
    · refine ⟨a.tdiv b - 1, a.tmod b + b, ?_, ?_, by linarith, ?_⟩
      · rw [if_pos ⟨hm, hsame⟩]
      · rw [if_pos ⟨hm, fun hc => hsame (by rw [hsign] at hc; exact hc.symm)⟩]
      · rcases lt_trichotomy b 0 with h | h | h
        · refine Or.inr (Or.inr ⟨h, ?_⟩)
          have ha : ¬a < 0 := fun hc => hsame (by omega)
          have h1 : ¬a.tmod b < 0 := fun hc => ha (hsign.mp hc)
          have := hbounds.2
          rw [abs_of_neg h] at this
          omega
        · exact absurd h hb
        · refine Or.inr (Or.inl ⟨h, ?_⟩)
          have ha : a < 0 := by
            by_contra hc
            exact hsame (by omega)
          have h1 : a.tmod b < 0 := hsign.mpr ha
          have := hbounds.1
          rw [abs_of_pos h] at this
          omega

/-- C5 witness: the theorem instantiated at `a = 7`, `b = 2`. -/
theorem c5_floordiv_mod_witness :
    (∃ q r, NgFloorDiv 7 2 = some q ∧ NgMod 7 2 = some r ∧
      q * 2 + r = 7 ∧ (r = 0 ∨ (0 < (2 : Int) ∧ 0 < r) ∨ ((2 : Int) < 0 ∧ r < 0))) ∧
    NgFloorDiv 7 2 = some 3 ∧ NgFloorDiv (-7) 2 = some (-4) ∧
    NgFloorDiv 7 (-2) = some (-4) ∧ NgFloorDiv (-7) (-2) = some 3 :=
  c5_floordiv_mod 7 2 (by decide)

/-! ## Claim support: UTF-8 round trip -/

/-- Bitwise or is addition when the low `k` bits of the left operand are
zero and the right operand fits in them. -/
theorem lor_eq_add {m b k : Nat} (hb : b < 2 ^ k) :
    (m * 2 ^ k) ||| b = m * 2 ^ k + b := by
  apply Nat.eq_of_testBit_eq
  intro i
  rw [Nat.testBit_lor]
  rw [show m * 2 ^ k + b = 2 ^ k * m + b from by ring]
  rw [Nat.testBit_mul_pow_two_add m hb i]
  rw [show m * 2 ^ k = 2 ^ k * m from by ring, Nat.testBit_mul_pow_two]
  by_cases hik : i < k
  · rw [if_pos hik, decide_eq_false (by omega : ¬i ≥ k), Bool.false_and,
      Bool.false_or]
  · rw [if_neg hik, decide_eq_true (by omega : i ≥ k), Bool.true_and]
    have hbf : b.testBit i = false :=
      Nat.testBit_lt_two_pow
        (lt_of_lt_of_le hb (Nat.pow_le_pow_right (by omega) (by omega)))
    rw [hbf, Bool.or_false]

/-- Shifted-left operands distribute over bitwise or. -/
theorem lor_mul_pow {a b k : Nat} :
    (a * 2 ^ k) ||| (b * 2 ^ k) = (a ||| b) * 2 ^ k := by
  apply Nat.eq_of_testBit_eq
  intro i
  rw [Nat.testBit_lor,
    show a * 2 ^ k = 2 ^ k * a from by ring,
    show b * 2 ^ k = 2 ^ k * b from by ring,
    show (a ||| b) * 2 ^ k = 2 ^ k * (a ||| b) from by ring,
    Nat.testBit_mul_pow_two, Nat.testBit_mul_pow_two,
    Nat.testBit_mul_pow_two, Nat.testBit_lor]
  by_cases h : i ≥ k
  · rw [decide_eq_true h]
    simp
  · rw [decide_eq_false h]
    simp

theorem byteC0 {d : Nat} (hd : d < 32) :
    ¬(0xC0 + d ≤ 0x7F) ∧ (0xC0 + d) &&& 0xE0 = 0xC0 ∧
      (0xC0 + d) &&& 0x1F = d := by
  refine ⟨by omega, ?_, ?_⟩ <;> interval_cases d <;> decide

theorem byteE0 {d : Nat} (hd : d < 16) :
    ¬(0xE0 + d ≤ 0x7F) ∧ ¬((0xE0 + d) &&& 0xE0 = 0xC0) ∧
      (0xE0 + d) &&& 0xF0 = 0xE0 ∧ (0xE0 + d) &&& 0x0F = d := by
  refine ⟨by omega, ?_, ?_, ?_⟩ <;> interval_cases d <;> decide

theorem byteF0 {d : Nat} (hd : d < 8) :
    ¬(0xF0 + d ≤ 0x7F) ∧ ¬((0xF0 + d) &&& 0xE0 = 0xC0) ∧
      ¬((0xF0 + d) &&& 0xF0 = 0xE0) ∧ (0xF0 + d) &&& 0xF8 = 0xF0 ∧
      (0xF0 + d) &&& 0x07 = d := by
  refine ⟨by omega, ?_, ?_, ?_, ?_⟩ <;> interval_cases d <;> decide

theorem byte80 {m : Nat} (hm : m < 64) : (0x80 + m) &&& 0x3F = m := by
  rw [show (0x3F : Nat) = 2 ^ 6 - 1 from rfl, Nat.and_pow_two_sub_one_eq_mod]
  omega

/-- Decoding undoes encoding for one code point (any following bytes are
ignored), and reports the encoded length. -/
theorem utf8_decode_encode (cp : Nat) (h2 : cp ≤ 0x10FFFF) (rest : List Nat) :
    utf8_decode (utf8_encode cp ++ rest) = (cp, (utf8_encode cp).length) := by
  have hand6 : cp &&& 0x3F = cp % 64 := by
    rw [show (0x3F : Nat) = 2 ^ 6 - 1 from rfl, Nat.and_pow_two_sub_one_eq_mod]
  by_cases hc1 : cp ≤ 0x7F
  · have he : utf8_encode cp = [cp] := by simp [utf8_encode, hc1]
    rw [he]
    simp [utf8_decode, hc1]
  · by_cases hc2 : cp ≤ 0x7FF
    · have hsh : cp >>> 6 = cp / 64 := by rw [Nat.shiftRight_eq_div_pow]
      have hdlt : cp / 64 < 32 := by omega
      have he : utf8_encode cp = [0xC0 + cp / 64, 0x80 + cp % 64] := by
        simp only [utf8_encode, if_neg hc1, if_pos hc2]
        rw [hsh, hand6,
          show (0xC0 : Nat) = 3 * 2 ^ 6 from rfl,
          lor_eq_add (show cp / 64 < 2 ^ 6 from by
            rw [show ((2 : Nat) ^ 6) = 64 from rfl]; omega),
          show (0x80 : Nat) = 2 * 2 ^ 6 from rfl,
          lor_eq_add (show cp % 64 < 2 ^ 6 from by
            rw [show ((2 : Nat) ^ 6) = 64 from rfl]; omega)]
      obtain ⟨hne, hm224, hm31⟩ := byteC0 hdlt
      rw [he]
      simp only [utf8_decode, List.cons_append, List.getD_cons_zero,
        List.getD_cons_succ]
      rw [if_neg hne, if_pos hm224, hm31, byte80 (by omega)]
      rw [Nat.shiftLeft_eq,
        lor_eq_add (show cp % 64 < 2 ^ 6 from by
          rw [show ((2 : Nat) ^ 6) = 64 from rfl]; omega)]
      rw [show cp / 64 * 2 ^ 6 + cp % 64 = cp from by
        rw [show ((2 : Nat) ^ 6) = 64 from rfl]; omega]
      rfl
    · by_cases hc3 : cp ≤ 0xFFFF
      · have hsh12 : cp >>> 12 = cp / 4096 := by rw [Nat.shiftRight_eq_div_pow]
        have hsh6 : cp >>> 6 = cp / 64 := by rw [Nat.shiftRight_eq_div_pow]
        have hand6d : cp / 64 &&& 0x3F = cp / 64 % 64 := by
          rw [show (0x3F : Nat) = 2 ^ 6 - 1 from rfl,
            Nat.and_pow_two_sub_one_eq_mod]
        have hdlt : cp / 4096 < 16 := by omega
        have he : utf8_encode cp =
            [0xE0 + cp / 4096, 0x80 + cp / 64 % 64, 0x80 + cp % 64] := by
          simp only [utf8_encode, if_neg hc1, if_neg hc2, if_pos hc3]
          rw [hsh12, hsh6, hand6d, hand6,
            show (0xE0 : Nat) = 7 * 2 ^ 5 from rfl,
            lor_eq_add (show cp / 4096 < 2 ^ 5 from by
              rw [show ((2 : Nat) ^ 5) = 32 from rfl]; omega),
            show (0x80 : Nat) = 2 * 2 ^ 6 from rfl,
            lor_eq_add (show cp / 64 % 64 < 2 ^ 6 from by
              rw [show ((2 : Nat) ^ 6) = 64 from rfl]; omega),
            lor_eq_add (show cp % 64 < 2 ^ 6 from by
              rw [show ((2 : Nat) ^ 6) = 64 from rfl]; omega)]
        obtain ⟨hne, hnc0, hm240, hm15⟩ := byteE0 hdlt
        rw [he]
        simp only [utf8_decode, List.cons_append, List.getD_cons_zero,
          List.getD_cons_succ]
        rw [if_neg hne, if_neg hnc0, if_pos hm240, hm15,
          byte80 (show cp / 64 % 64 < 64 by omega),
          byte80 (show cp % 64 < 64 by omega)]
        rw [Nat.shiftLeft_eq, Nat.shiftLeft_eq]
        rw [lor_eq_add (show cp / 64 % 64 * 2 ^ 6 < 2 ^ 12 from by
          rw [show ((2 : Nat) ^ 6) = 64 from rfl,
            show ((2 : Nat) ^ 12) = 4096 from rfl]
          omega)]
        rw [show cp / 4096 * 2 ^ 12 + cp / 64 % 64 * 2 ^ 6 =
          (cp / 4096 * 2 ^ 6 + cp / 64 % 64) * 2 ^ 6 from by ring]
        rw [lor_eq_add (show cp % 64 < 2 ^ 6 from by
          rw [show ((2 : Nat) ^ 6) = 64 from rfl]; omega)]
        rw [show (cp / 4096 * 2 ^ 6 + cp / 64 % 64) * 2 ^ 6 + cp % 64 = cp
          from by rw [show ((2 : Nat) ^ 6) = 64 from rfl]; omega]
        rfl
      · have hsh18 : cp >>> 18 = cp / 262144 := by
          rw [Nat.shiftRight_eq_div_pow]
        have hsh12 : cp >>> 12 = cp / 4096 := by rw [Nat.shiftRight_eq_div_pow]
        have hsh6 : cp >>> 6 = cp / 64 := by rw [Nat.shiftRight_eq_div_pow]
        have hand6d12 : cp / 4096 &&& 0x3F = cp / 4096 % 64 := by
          rw [show (0x3F : Nat) = 2 ^ 6 - 1 from rfl,
            Nat.and_pow_two_sub_one_eq_mod]
        have hand6d6 : cp / 64 &&& 0x3F = cp / 64 % 64 := by
          rw [show (0x3F : Nat) = 2 ^ 6 - 1 from rfl,
            Nat.and_pow_two_sub_one_eq_mod]
        have hdlt : cp / 262144 < 8 := by omega
        have he : utf8_encode cp =
            [0xF0 + cp / 262144, 0x80 + cp / 4096 % 64,
             0x80 + cp / 64 % 64, 0x80 + cp % 64] := by
          simp only [utf8_encode, if_neg hc1, if_neg hc2, if_neg hc3]
          rw [hsh18, hsh12, hsh6, hand6d12, hand6d6, hand6,
            show (0xF0 : Nat) = 15 * 2 ^ 4 from rfl,
            lor_eq_add (show cp / 262144 < 2 ^ 4 from by
              rw [show ((2 : Nat) ^ 4) = 16 from rfl]; omega),
            show (0x80 : Nat) = 2 * 2 ^ 6 from rfl,
            lor_eq_add (show cp / 4096 % 64 < 2 ^ 6 from by
              rw [show ((2 : Nat) ^ 6) = 64 from rfl]; omega),
            lor_eq_add (show cp / 64 % 64 < 2 ^ 6 from by
              rw [show ((2 : Nat) ^ 6) = 64 from rfl]; omega),
            lor_eq_add (show cp % 64 < 2 ^ 6 from by
              rw [show ((2 : Nat) ^ 6) = 64 from rfl]; omega)]
        obtain ⟨hne, hnc0, hne0, hm248, hm7⟩ := byteF0 hdlt
        rw [he]
        simp only [utf8_decode, List.cons_append, List.getD_cons_zero,
          List.getD_cons_succ]
        rw [if_neg hne, if_neg hnc0, if_neg hne0, if_pos hm248, hm7,
          byte80 (show cp / 4096 % 64 < 64 by omega),
          byte80 (show cp / 64 % 64 < 64 by omega),
          byte80 (show cp % 64 < 64 by omega)]
        rw [Nat.shiftLeft_eq, Nat.shiftLeft_eq, Nat.shiftLeft_eq]
        rw [show cp / 262144 * 2 ^ 18 = cp / 262144 * 2 ^ 6 * 2 ^ 12 from by
          ring]
        rw [lor_mul_pow]
        rw [lor_eq_add (show cp / 4096 % 64 < 2 ^ 6 from by
          rw [show ((2 : Nat) ^ 6) = 64 from rfl]; omega)]
        rw [show (cp / 262144 * 2 ^ 6 + cp / 4096 % 64) * 2 ^ 12 =
          (cp / 262144 * 2 ^ 6 + cp / 4096 % 64) * 2 ^ 6 * 2 ^ 6 from by ring]
        rw [lor_mul_pow]
        rw [lor_eq_add (show cp / 64 % 64 < 2 ^ 6 from by
          rw [show ((2 : Nat) ^ 6) = 64 from rfl]; omega)]
        rw [lor_eq_add (show cp % 64 < 2 ^ 6 from by
          rw [show ((2 : Nat) ^ 6) = 64 from rfl]; omega)]
        rw [show ((cp / 262144 * 2 ^ 6 + cp / 4096 % 64) * 2 ^ 6 +
            cp / 64 % 64) * 2 ^ 6 + cp % 64 = cp from by
          rw [show ((2 : Nat) ^ 6) = 64 from rfl]; omega]
        rfl

theorem utf8_encode_length_pos (cp : Nat) : 1 ≤ (utf8_encode cp).length := by
  unfold utf8_encode
  split_ifs <;> simp

/-- Decoding undoes encoding for a whole code point sequence. -/
theorem utf8DecodeAll_encode (cps : List Nat) (h : ∀ c ∈ cps, c ≤ 0x10FFFF) :
    ∀ fuel, ((cps.map utf8_encode).join).length ≤ fuel →
      utf8DecodeAll fuel ((cps.map utf8_encode).join) = cps := by
  induction cps with
  | nil =>
    intro fuel hf
    cases fuel <;> rfl
  | cons c cs ih =>
    intro fuel hf
    have hlen1 : 1 ≤ (utf8_encode c).length := utf8_encode_length_pos c
    have hjoin : ((c :: cs).map utf8_encode).join =
        utf8_encode c ++ (cs.map utf8_encode).join := by simp
    rw [hjoin] at hf ⊢
    rw [List.length_append] at hf
    cases fuel with
    | zero => omega
    | succ f =>
      have hdec := utf8_decode_encode c (h c (by simp)) ((cs.map utf8_encode).join)
      have hcons : utf8_encode c ++ (cs.map utf8_encode).join ≠ [] := by
        intro hc
        rcases List.append_eq_nil.mp hc with ⟨h1, -⟩
        rw [h1] at hlen1
        simp at hlen1
      obtain ⟨b, bs, hbs⟩ : ∃ b bs, utf8_encode c ++ (cs.map utf8_encode).join = b :: bs := by
        cases hx : utf8_encode c ++ (cs.map utf8_encode).join with
        | nil => exact absurd hx hcons
        | cons b bs => exact ⟨b, bs, rfl⟩
      rw [hbs]
      simp only [utf8DecodeAll]
      rw [← hbs, hdec]
      rw [show ((c, (utf8_encode c).length) : Nat × Nat).1 = c from rfl,
        show ((c, (utf8_encode c).length) : Nat × Nat).2 =
          (utf8_encode c).length from rfl]
      rw [List.drop_left]
      rw [ih (fun x hx => h x (by simp [hx])) f (by omega)]

/-- C6: for every (null-free, code-point-valid) UTF-8 input to
`alloc_str`, the `size` field counts code points (not bytes), the storage
kind is the minimal 1/2/4-byte width sufficient for the maximal code
point, and the ASCII flag is set iff every code point is at most 0x7F;
with the specification's four concrete cases "A", "é", "漢", "😀". -/
theorem c6_alloc_str_fields (cps : List Nat)
    (h : ∀ c ∈ cps, 1 ≤ c ∧ c ≤ 0x10FFFF) :
    (alloc_str ((cps.map utf8_encode).join)).size = cps.length ∧
    ((alloc_str ((cps.map utf8_encode).join)).kind =
      if cps.foldl max 0 ≤ 0xFF then 0
      else if cps.foldl max 0 ≤ 0xFFFF then 1 else 2) ∧
    ((alloc_str ((cps.map utf8_encode).join)).is_ascii = true ↔
      ∀ c ∈ cps, c ≤ 0x7F) ∧
    (alloc_str [0x41]).kind = 0 ∧ (alloc_str [0x41]).size = 1 ∧
    (alloc_str [0x41]).is_ascii = true ∧
    (alloc_str [0xC3, 0xA9]).kind = 0 ∧ (alloc_str [0xC3, 0xA9]).size = 1 ∧
    (alloc_str [0xC3, 0xA9]).is_ascii = false ∧
    (alloc_str [0xE6, 0xBC, 0xA2]).kind = 1 ∧
    (alloc_str [0xE6, 0xBC, 0xA2]).size = 1 ∧
    (alloc_str [0xF0, 0x9F, 0x98, 0x80]).kind = 2 ∧
    (alloc_str [0xF0, 0x9F, 0x98, 0x80]).size = 1 := by
  have hdec : utf8DecodeAll ((cps.map utf8_encode).join).length
      ((cps.map utf8_encode).join) = cps :=
    utf8DecodeAll_encode cps (fun c hc => (h c hc).2) _ (le_refl _)
  refine ⟨?_, ?_, ?_, by decide, by decide, by decide, by decide, by decide,
    by decide, by decide, by decide, by decide, by decide⟩
  · simp only [alloc_str]
    rw [hdec]
  · simp only [alloc_str]
    rw [hdec]
  · simp only [alloc_str]
    rw [hdec]
    simp [List.all_eq_true]

/-- C6 witness: the theorem instantiated at the single code point
U+1F600. -/
theorem c6_alloc_str_fields_witness :
    (alloc_str (([0x1F600].map utf8_encode).join)).size = 1 ∧
    (alloc_str (([0x1F600].map utf8_encode).join)).kind = 2 ∧
    ((alloc_str (([0x1F600].map utf8_encode).join)).is_ascii = true ↔
      ∀ c ∈ [0x1F600], c ≤ 0x7F) := by
  obtain ⟨h1, h2, h3, -⟩ := c6_alloc_str_fields [0x1F600] (by decide)
  refine ⟨h1, ?_, h3⟩
  rw [h2]
  decide

/-- C4: the UTF-8 bytes of "é" (C3 A9, code point U+00E9) produce a
kind-0 non-ASCII string, and `string_cstr_tmp` emits the raw stored byte
E9 instead of re-encoding it — the output does not decode back to the
input (the correct re-encoding of U+00E9 is C3 A9). -/
theorem c4_cstr_kind0_not_utf8 :
    alloc_str [0xC3, 0xA9] = ⟨0, false, 1, [0xE9]⟩ ∧
    string_cstr_tmp (alloc_str [0xC3, 0xA9]) = [0xE9] ∧
    string_cstr_tmp (alloc_str [0xC3, 0xA9]) ≠ [0xC3, 0xA9] ∧
    utf8_encode 0xE9 = [0xC3, 0xA9] := by
  refine ⟨by decide, by decide, by decide, by decide⟩

/-- Wrapping is the identity on in-range `int32` values. -/
theorem wrap32_eq_self {x : Int} (hlo : -2 ^ 31 ≤ x) (hhi : x < 2 ^ 31) :
    wrap32 x = x := by
  unfold wrap32
  rw [Int.emod_eq_of_lt (by omega) (by omega)]
  ring

/-- C7: for a non-null object with refcount at least 1 (and no int32
overflow), `INCREF` returns the object with its refcount incremented by
one, and the following `DECREF` returns the object itself, restores the
refcount, changes no other refcount, and performs no teardown. -/
theorem c7_incref_decref (h : Heap) (i : Nat)
    (h1 : 1 ≤ h.rc i) (h2 : h.rc i + 1 < 2 ^ 31) :
    (INCREF h (some i)).2 = some i ∧
    (INCREF h (some i)).1.rc i = h.rc i + 1 ∧
    (DECREF (INCREF h (some i)).1 (INCREF h (some i)).2).2 = some i ∧
    (∀ j, (DECREF (INCREF h (some i)).1 (INCREF h (some i)).2).1.rc j =
      h.rc j) ∧
    (DECREF (INCREF h (some i)).1 (INCREF h (some i)).2).1.freed =
      h.freed := by
  have hw1 : wrap32 (h.rc i + 1) = h.rc i + 1 :=
    wrap32_eq_self (by omega) (by omega)
  have hw2 : wrap32 (h.rc i + 1 - 1) = h.rc i := by
    rw [show h.rc i + 1 - 1 = h.rc i from by ring]
    exact wrap32_eq_self (by omega) (by omega)
  have hD : DECREF (INCREF h (some i)).1 (INCREF h (some i)).2 =
      ({ rc := Function.update (Function.update h.rc i (h.rc i + 1)) i
            (h.rc i),
         freed := h.freed }, some i) := by
    simp only [INCREF, DECREF, Function.update_same, hw1, hw2]
    rw [if_neg (by omega : ¬h.rc i = 0)]
  refine ⟨rfl, ?_, ?_, ?_, ?_⟩
  · show Function.update h.rc i (wrap32 (h.rc i + 1)) i = h.rc i + 1
    rw [Function.update_same, hw1]
  · rw [hD]
  · intro j
    rw [hD]
    show Function.update (Function.update h.rc i (h.rc i + 1)) i (h.rc i) j =
      h.rc j
    by_cases hij : j = i
    · subst hij
      rw [Function.update_same]
    · rw [Function.update_noteq hij, Function.update_noteq hij]
  · rw [hD]

/-- C7 witness: the theorem at a one-object heap with refcount 1. -/
theorem c7_incref_decref_witness :
    (INCREF ⟨fun _ => 1, []⟩ (some 0)).2 = some 0 ∧
    (INCREF ⟨fun _ => 1, []⟩ (some 0)).1.rc 0 =
      (⟨fun _ => 1, []⟩ : Heap).rc 0 + 1 ∧
    (DECREF (INCREF ⟨fun _ => 1, []⟩ (some 0)).1
      (INCREF ⟨fun _ => 1, []⟩ (some 0)).2).2 = some 0 ∧
    (∀ j, (DECREF (INCREF ⟨fun _ => 1, []⟩ (some 0)).1
      (INCREF ⟨fun _ => 1, []⟩ (some 0)).2).1.rc j =
      (⟨fun _ => 1, []⟩ : Heap).rc j) ∧
    (DECREF (INCREF ⟨fun _ => 1, []⟩ (some 0)).1
      (INCREF ⟨fun _ => 1, []⟩ (some 0)).2).1.freed =
      (⟨fun _ => 1, []⟩ : Heap).freed :=
  c7_incref_decref ⟨fun _ => 1, []⟩ 0 (by decide) (by decide)

/-- C8: for a key present in a reachable dictionary, `dict_get` returns
the stored value and (being pure in the model) touches no refcount, while
`NgGetMember` on an instance with that attribute dictionary returns the
same value with exactly its refcount incremented by one; every other
refcount and the teardown log are unchanged. -/
theorem c8_getmember_increfs {d : NDict} (hr : Reachable d) {k : Obj}
    {j : Nat} (hj : j < d.capacity) (hm : MatchesAt d.entries k j) {v : Obj}
    (hv : (d.entries j).value = some v) (h : Heap)
    (hlo : 0 ≤ h.rc v.id) (hhi : h.rc v.id + 1 < 2 ^ 31) :
    dict_get d k = some v ∧
    (NgGetMember h (some d) k).2 = some v ∧
    (NgGetMember h (some d) k).1.rc v.id = h.rc v.id + 1 ∧
    (∀ j', j' ≠ v.id → (NgGetMember h (some d) k).1.rc j' = h.rc j') ∧
    (NgGetMember h (some d) k).1.freed = h.freed := by
  have inv := Reachable_inv hr
  have hq := dictGetQ_found inv hj hm
  have hget : dict_get d k = some v := by
    unfold dict_get
    rw [hq, hv]
    rfl
  have hw1 : wrap32 (h.rc v.id + 1) = h.rc v.id + 1 :=
    wrap32_eq_self (by omega) (by omega)
  have hD : NgGetMember h (some d) k =
      ({ rc := Function.update h.rc v.id (h.rc v.id + 1),
         freed := h.freed }, some v) := by
    show ((INCREF h ((dict_get d k).map Obj.id)).1, dict_get d k) = _
    rw [hget]
    simp only [Option.map, INCREF, hw1]
  refine ⟨hget, ?_, ?_, ?_, ?_⟩
  · rw [hD]
  · rw [hD]
    show Function.update h.rc v.id (h.rc v.id + 1) v.id = h.rc v.id + 1
    rw [Function.update_same]
  · intro j' hne
    rw [hD]
    show Function.update h.rc v.id (h.rc v.id + 1) j' = h.rc j'
    rw [Function.update_noteq hne]
  · rw [hD]

/-- C8 witness: the dictionary `{⟨1, int 5⟩ ↦ ⟨2, int 7⟩}` on a heap of
refcount-1 objects. -/
theorem c8_getmember_increfs_witness :
    dict_get (dictSetD allocDict ⟨1, ObjData.int 5⟩ ⟨2, ObjData.int 7⟩)
      ⟨1, ObjData.int 5⟩ = some ⟨2, ObjData.int 7⟩ ∧
    (NgGetMember ⟨fun _ => 1, []⟩
      (some (dictSetD allocDict ⟨1, ObjData.int 5⟩ ⟨2, ObjData.int 7⟩))
      ⟨1, ObjData.int 5⟩).2 = some ⟨2, ObjData.int 7⟩ ∧
    (NgGetMember ⟨fun _ => 1, []⟩
      (some (dictSetD allocDict ⟨1, ObjData.int 5⟩ ⟨2, ObjData.int 7⟩))
      ⟨1, ObjData.int 5⟩).1.rc (Obj.mk 2 (ObjData.int 7)).id =
      (⟨fun _ => 1, []⟩ : Heap).rc (Obj.mk 2 (ObjData.int 7)).id + 1 ∧
    (∀ j', j' ≠ (Obj.mk 2 (ObjData.int 7)).id →
      (NgGetMember ⟨fun _ => 1, []⟩
        (some (dictSetD allocDict ⟨1, ObjData.int 5⟩ ⟨2, ObjData.int 7⟩))
        ⟨1, ObjData.int 5⟩).1.rc j' = (⟨fun _ => 1, []⟩ : Heap).rc j') ∧
    (NgGetMember ⟨fun _ => 1, []⟩
      (some (dictSetD allocDict ⟨1, ObjData.int 5⟩ ⟨2, ObjData.int 7⟩))
      ⟨1, ObjData.int 5⟩).1.freed = (⟨fun _ => 1, []⟩ : Heap).freed := by
  refine c8_getmember_increfs
    (Reachable.set Reachable.alloc
      (rfl : dictSet allocDict ⟨1, ObjData.int 5⟩ ⟨2, ObjData.int 7⟩ =
        some (dictSetD allocDict ⟨1, ObjData.int 5⟩ ⟨2, ObjData.int 7⟩)))
    (j := 1) (by decide) (by decide) (by decide) ⟨fun _ => 1, []⟩
    (by decide) (by decide)

theorem NgGetItem_list (items : List Obj) (index : Int) :
    NgGetItem (Container.list items) index =
      if (if index < 0 then index + items.length else index) < 0 ∨
          (items.length : Int) ≤
            (if index < 0 then index + items.length else index)
        then .error .indexError
        else .ok (items.getD
          (if index < 0 then index + items.length else index).toNat
          ⟨0, ObjData.other⟩) := rfl

theorem NgGetItem_tuple (items : List Obj) (index : Int) :
    NgGetItem (Container.tuple items) index =
      if (if index < 0 then index + items.length else index) < 0 ∨
          (items.length : Int) ≤
            (if index < 0 then index + items.length else index)
        then .error .indexError
        else .ok (items.getD
          (if index < 0 then index + items.length else index).toNat
          ⟨0, ObjData.other⟩) := rfl

theorem NgSetItem_list (items : List Obj) (index : Int) (v : Obj) :
    NgSetItem (Container.list items) index v =
      if (if index < 0 then index + items.length else index) < 0 ∨
          (items.length : Int) ≤
            (if index < 0 then index + items.length else index)
        then .error .indexError
        else .ok (Container.list (items.set
          (if index < 0 then index + items.length else index).toNat v)) := rfl

/-- C9: `NgGetItem` on lists and tuples returns the element at the
once-normalized index when it is in range and an IndexError otherwise;
`NgSetItem` does the same replacement for lists and fails with a
TypeError on every tuple. -/
theorem c9_getitem_setitem (items : List Obj) (index : Int) (v : Obj) :
    (∀ (n : Nat) (hn : n < items.length),
      specNormIdx index items.length = n →
      NgGetItem (Container.list items) index = .ok (items.get ⟨n, hn⟩) ∧
      NgGetItem (Container.tuple items) index = .ok (items.get ⟨n, hn⟩) ∧
      NgSetItem (Container.list items) index v =
        .ok (Container.list (items.set n v))) ∧
    ((specNormIdx index items.length < 0 ∨
        (items.length : Int) ≤ specNormIdx index items.length) →
      NgGetItem (Container.list items) index = .error .indexError ∧
      NgGetItem (Container.tuple items) index = .error .indexError ∧
      NgSetItem (Container.list items) index v = .error .indexError) ∧
    NgSetItem (Container.tuple items) index v = .error .typeError := by
  rw [NgGetItem_list, NgGetItem_tuple, NgSetItem_list]
  simp only [specNormIdx]
  refine ⟨?_, ?_, rfl⟩
  · intro n hn heq
    have hcond : ¬((if index < 0 then index + items.length else index) < 0 ∨
        (items.length : Int) ≤
          (if index < 0 then index + items.length else index)) := by
      rw [heq]
      omega
    rw [if_neg hcond]
    have htn : (if index < 0 then index + items.length else index).toNat =
        n := by
      rw [heq]
      simp
    rw [htn]
    have hgd : items.getD n ⟨0, ObjData.other⟩ = items.get ⟨n, hn⟩ := by
      rw [List.getD_eq_getElem _ _ hn]
      rfl
    rw [hgd]
    refine ⟨rfl, rfl, ?_⟩
    rw [if_neg hcond]
  · intro hout
    rw [if_pos hout]
    refine ⟨rfl, rfl, ?_⟩
    rw [if_pos hout]

/-- C3: a default-capacity list's items buffer (32 bytes) is produced by
size-class pool 3, but the `DECREF` teardown of a list releases the
buffer with `free` — the system allocator — and the growth path of
`list_append` releases the old buffer by the shell header's provenance,
never the buffer's own. -/
theorem c3_items_release_mismatch :
    list_init_itemsProducer 4 = Allocator.pool 3 ∧
    DECREF_list_itemsReleaser (list_init_itemsProducer 4) =
      Allocator.system ∧
    DECREF_list_itemsReleaser (list_init_itemsProducer 4) ≠
      list_init_itemsProducer 4 ∧
    list_append_oldItemsReleaser Allocator.system (Allocator.pool 3) =
      Allocator.system ∧
    list_append_oldItemsReleaser Allocator.system (Allocator.pool 3) ≠
      Allocator.pool 3 := by
  refine ⟨by decide, rfl, by decide, rfl, by decide⟩

/-! ## Claim support: the dictionary claims -/

/-- No key compares `ObjectsEqual` to a NaN float: IEEE `==` rejects
NaN against everything, including the identical object. -/
theorem ObjectsEqual_nan_right (a : Obj) (i : Nat) :
    ObjectsEqual a ⟨i, ObjData.float NDouble.nan⟩ = false := by
  rcases a with ⟨ia, da⟩
  cases da with
  | int v => rfl
  | float x => cases x <;> rfl
  | str h => rfl
  | other => rfl

/-- No table contains an entry matching a NaN float key. -/
theorem not_ContainsEq_nan (E : Nat → Entry) (cap : Nat) (i : Nat) :
    ¬ContainsEq E cap ⟨i, ObjData.float NDouble.nan⟩ := by
  rintro ⟨j, hj, hocc, hh, he⟩
  cases hkey : (E j).key with
  | none =>
    rw [hkey] at he
    simp [ObjectsEqualOpt] at he
  | some kj =>
    rw [hkey] at he
    have hne := ObjectsEqual_nan_right kj i
    rw [show ObjectsEqualOpt (some kj) ⟨i, ObjData.float NDouble.nan⟩ =
      ObjectsEqual kj ⟨i, ObjData.float NDouble.nan⟩ from rfl, hne] at he
    cases he

/-- C1 counterexample: two concrete runs refute the claim as worded.
First, `+0.0` and `-0.0` keys (different ids, different bit patterns, so
unequal under the claim's bit-equal rule): the second insert nevertheless
updates in place — the count is unchanged and looking up the first key
returns the second value, because `ObjectsEqual` uses IEEE `==`.
Second, two unequal int keys where the second key already sat in the
dictionary before the first insert: the second insert leaves the count
unchanged instead of increasing it by exactly 1. -/
theorem c1_counterexample :
    ∃ d1 d2 dp1 dp2,
      dictSet allocDict ⟨1, ObjData.float NDouble.posZero⟩ ⟨3, ObjData.int 10⟩ =
        some d1 ∧
      dictSet d1 ⟨2, ObjData.float NDouble.negZero⟩ ⟨4, ObjData.int 20⟩ =
        some d2 ∧
      specKeyEqual ⟨1, ObjData.float NDouble.posZero⟩
        ⟨2, ObjData.float NDouble.negZero⟩ = false ∧
      d2.count = d1.count ∧
      dict_get d2 ⟨1, ObjData.float NDouble.posZero⟩ =
        some ⟨4, ObjData.int 20⟩ ∧
      dictSet (dictSetD allocDict ⟨12, ObjData.int 2⟩ ⟨3, ObjData.int 10⟩)
        ⟨11, ObjData.int 1⟩ ⟨3, ObjData.int 10⟩ = some dp1 ∧
      dictSet dp1 ⟨12, ObjData.int 2⟩ ⟨4, ObjData.int 20⟩ = some dp2 ∧
      specKeyEqual ⟨11, ObjData.int 1⟩ ⟨12, ObjData.int 2⟩ = false ∧
      ObjectsEqual ⟨11, ObjData.int 1⟩ ⟨12, ObjData.int 2⟩ = false ∧
      dp2.count = dp1.count := by
  refine ⟨_, _, _, _, rfl, rfl, rfl, rfl, rfl, rfl, rfl, rfl, rfl, rfl⟩

/-- C1 (amended): with equality read as the source's `ObjectsEqual`
(floats by IEEE `==`, not bit equality) and the count increment
conditioned on the second key not being present beforehand, the claimed
behaviour holds on every reachable dictionary. -/
theorem c1_amended_set_set {d d1 d2 : NDict} {ka kb v1 v2 : Obj}
    (hr : Reachable d) (h1 : dictSet d ka v1 = some d1)
    (h2 : dictSet d1 kb v2 = some d2) :
    (ObjectsEqual ka kb = true →
      d2.count = d1.count ∧ dict_get d2 ka = some v2) ∧
    (ObjectsEqual ka kb = false →
      ¬ContainsEq d.entries d.capacity kb →
      d2.count = d1.count + 1) := by
  have invd := Reachable_inv hr
  obtain ⟨d1', e1, inv1, hcnt1, hget1, hiff1⟩ := dictSet_spec invd ka v1
  rw [h1] at e1
  cases e1
  obtain ⟨d2', e2, inv2, hcnt2, hget2, hiff2⟩ := dictSet_spec inv1 kb v2
  rw [h2] at e2
  cases e2
  constructor
  · intro heq
    constructor
    · have hc : ContainsEq d1.entries d1.capacity kb := by
        rw [hiff1 kb]
        exact Or.inr ⟨(hashObj_congr heq).symm, heq⟩
      rw [hcnt2, if_pos hc]
      omega
    · have hg := hget2 ka heq
      unfold dict_get
      rw [hg]
      rfl
  · intro hne hnc
    have hnc1 : ¬ContainsEq d1.entries d1.capacity kb := by
      rw [hiff1 kb]
      rintro (hc | ⟨-, hc2⟩)
      · exact hnc hc
      · rw [hne] at hc2
        cases hc2
    rw [hcnt2, if_neg hnc1]

/-- C1 (amended) witness: two inserts of `ObjectsEqual` int keys 5 held
by distinct objects — an update: count unchanged, lookup of the first
key yields the second value. -/
theorem c1_amended_set_set_witness :
    (dictSetD (dictSetD allocDict ⟨1, ObjData.int 5⟩ ⟨2, ObjData.int 10⟩)
      ⟨3, ObjData.int 5⟩ ⟨4, ObjData.int 20⟩).count =
      (dictSetD allocDict ⟨1, ObjData.int 5⟩ ⟨2, ObjData.int 10⟩).count ∧
    dict_get (dictSetD (dictSetD allocDict ⟨1, ObjData.int 5⟩ ⟨2, ObjData.int 10⟩)
      ⟨3, ObjData.int 5⟩ ⟨4, ObjData.int 20⟩) ⟨1, ObjData.int 5⟩ =
      some ⟨4, ObjData.int 20⟩ := by
  have e1 : dictSet allocDict ⟨1, ObjData.int 5⟩ ⟨2, ObjData.int 10⟩ =
      some (dictSetD allocDict ⟨1, ObjData.int 5⟩ ⟨2, ObjData.int 10⟩) := rfl
  have e2 : dictSet (dictSetD allocDict ⟨1, ObjData.int 5⟩ ⟨2, ObjData.int 10⟩)
      ⟨3, ObjData.int 5⟩ ⟨4, ObjData.int 20⟩ =
      some (dictSetD (dictSetD allocDict ⟨1, ObjData.int 5⟩
        ⟨2, ObjData.int 10⟩) ⟨3, ObjData.int 5⟩ ⟨4, ObjData.int 20⟩) := rfl
  exact (c1_amended_set_set Reachable.alloc e1 e2).1 rfl

/-- C2 counterexample: a reachable dictionary (int keys 0, 8, 16, 24, 2,
3 inserted into a fresh dict) in which probing for the stored key
`⟨13, int 3⟩` from its home slot encounters PSLs 4, 3 — strictly
decreasing — before the matching slot stops the probe: the claimed
"non-decreasing PSLs" reading of Robin Hood fails. -/
theorem c2_counterexample :
    ∃ d, Reachable d ∧
      ContainsEq d.entries d.capacity ⟨13, ObjData.int 3⟩ ∧
      specProbeNonDecr d ⟨13, ObjData.int 3⟩ = false := by
  have h0 : Reachable allocDict := Reachable.alloc
  have e1 : dictSet allocDict ⟨10, ObjData.int 0⟩ ⟨3, ObjData.int 10⟩ =
      some (dictSetD allocDict ⟨10, ObjData.int 0⟩ ⟨3, ObjData.int 10⟩) := rfl
  have h1 := Reachable.set h0 e1
  have e2 : dictSet (dictSetD allocDict ⟨10, ObjData.int 0⟩ ⟨3, ObjData.int 10⟩)
      ⟨18, ObjData.int 8⟩ ⟨3, ObjData.int 10⟩ =
      some (dictSetD (dictSetD allocDict ⟨10, ObjData.int 0⟩ ⟨3, ObjData.int 10⟩)
        ⟨18, ObjData.int 8⟩ ⟨3, ObjData.int 10⟩) := rfl
  have h2 := Reachable.set h1 e2
  have e3 : dictSet (dictSetD (dictSetD allocDict ⟨10, ObjData.int 0⟩
        ⟨3, ObjData.int 10⟩) ⟨18, ObjData.int 8⟩ ⟨3, ObjData.int 10⟩)
      ⟨26, ObjData.int 16⟩ ⟨3, ObjData.int 10⟩ =
      some (dictSetD (dictSetD (dictSetD allocDict ⟨10, ObjData.int 0⟩
        ⟨3, ObjData.int 10⟩) ⟨18, ObjData.int 8⟩ ⟨3, ObjData.int 10⟩)
        ⟨26, ObjData.int 16⟩ ⟨3, ObjData.int 10⟩) := rfl
  have h3 := Reachable.set h2 e3
  have e4 : dictSet (dictSetD (dictSetD (dictSetD allocDict ⟨10, ObjData.int 0⟩
        ⟨3, ObjData.int 10⟩) ⟨18, ObjData.int 8⟩ ⟨3, ObjData.int 10⟩)
        ⟨26, ObjData.int 16⟩ ⟨3, ObjData.int 10⟩)
      ⟨34, ObjData.int 24⟩ ⟨3, ObjData.int 10⟩ =
      some (dictSetD (dictSetD (dictSetD (dictSetD allocDict
        ⟨10, ObjData.int 0⟩ ⟨3, ObjData.int 10⟩) ⟨18, ObjData.int 8⟩
        ⟨3, ObjData.int 10⟩) ⟨26, ObjData.int 16⟩ ⟨3, ObjData.int 10⟩)
        ⟨34, ObjData.int 24⟩ ⟨3, ObjData.int 10⟩) := rfl
  have h4 := Reachable.set h3 e4
  have e5 : dictSet (dictSetD (dictSetD (dictSetD (dictSetD allocDict
        ⟨10, ObjData.int 0⟩ ⟨3, ObjData.int 10⟩) ⟨18, ObjData.int 8⟩
        ⟨3, ObjData.int 10⟩) ⟨26, ObjData.int 16⟩ ⟨3, ObjData.int 10⟩)
        ⟨34, ObjData.int 24⟩ ⟨3, ObjData.int 10⟩)
      ⟨12, ObjData.int 2⟩ ⟨3, ObjData.int 10⟩ =
      some (dictSetD (dictSetD (dictSetD (dictSetD (dictSetD allocDict
        ⟨10, ObjData.int 0⟩ ⟨3, ObjData.int 10⟩) ⟨18, ObjData.int 8⟩
        ⟨3, ObjData.int 10⟩) ⟨26, ObjData.int 16⟩ ⟨3, ObjData.int 10⟩)
        ⟨34, ObjData.int 24⟩ ⟨3, ObjData.int 10⟩)
        ⟨12, ObjData.int 2⟩ ⟨3, ObjData.int 10⟩) := rfl
  have h5 := Reachable.set h4 e5
  have e6 : dictSet (dictSetD (dictSetD (dictSetD (dictSetD (dictSetD allocDict
        ⟨10, ObjData.int 0⟩ ⟨3, ObjData.int 10⟩) ⟨18, ObjData.int 8⟩
        ⟨3, ObjData.int 10⟩) ⟨26, ObjData.int 16⟩ ⟨3, ObjData.int 10⟩)
        ⟨34, ObjData.int 24⟩ ⟨3, ObjData.int 10⟩)
        ⟨12, ObjData.int 2⟩ ⟨3, ObjData.int 10⟩)
      ⟨13, ObjData.int 3⟩ ⟨3, ObjData.int 10⟩ =
      some (dictSetD (dictSetD (dictSetD (dictSetD (dictSetD (dictSetD
        allocDict ⟨10, ObjData.int 0⟩ ⟨3, ObjData.int 10⟩)
        ⟨18, ObjData.int 8⟩ ⟨3, ObjData.int 10⟩) ⟨26, ObjData.int 16⟩
        ⟨3, ObjData.int 10⟩) ⟨34, ObjData.int 24⟩ ⟨3, ObjData.int 10⟩)
        ⟨12, ObjData.int 2⟩ ⟨3, ObjData.int 10⟩)
        ⟨13, ObjData.int 3⟩ ⟨3, ObjData.int 10⟩) := rfl
  have h6 := Reachable.set h5 e6
  exact ⟨_, h6, by decide, by decide⟩

/-- C2 (amended): every reachable dictionary satisfies
`count ≤ threshold`, power-of-two capacity, `mask = capacity - 1`,
psl-0 slots are empty, and the richness form of the Robin Hood property:
every slot on an occupied slot's probe path carries a PSL at least the
probe distance (PSLs can decrease along a probe; what cannot happen is a
slot poorer than the probe distance before the match). -/
theorem c2_amended_invariants {d : NDict} (hr : Reachable d) :
    d.count ≤ d.threshold ∧
    (∃ K, 1 ≤ K ∧ d.capacity = 2 ^ K) ∧
    d.mask = d.capacity - 1 ∧
    (∀ i < d.capacity, (d.entries i).psl = 0 →
      (d.entries i).key = none ∧ (d.entries i).value = none) ∧
    (∀ j < d.capacity, (d.entries j).psl ≠ 0 →
      ∀ t, 1 ≤ t → t ≤ (d.entries j).psl →
        t ≤ (d.entries ((usize (d.entries j).hash % d.capacity + (t - 1)) %
          d.capacity)).psl) := by
  have inv := Reachable_inv hr
  exact ⟨inv.count_le, inv.pow2, inv.mask_eq, inv.struct.empty_none,
    fun j hj hocc => richness inv.struct hj hocc⟩

/-- C2 (amended) witness: the invariants at the freshly allocated
dictionary. -/
theorem c2_amended_invariants_witness :
    allocDict.count ≤ allocDict.threshold ∧
    (∃ K, 1 ≤ K ∧ allocDict.capacity = 2 ^ K) ∧
    allocDict.mask = allocDict.capacity - 1 ∧
    (∀ i < allocDict.capacity, (allocDict.entries i).psl = 0 →
      (allocDict.entries i).key = none ∧ (allocDict.entries i).value = none) ∧
    (∀ j < allocDict.capacity, (allocDict.entries j).psl ≠ 0 →
      ∀ t, 1 ≤ t → t ≤ (allocDict.entries j).psl →
        t ≤ (allocDict.entries ((usize (allocDict.entries j).hash %
          allocDict.capacity + (t - 1)) % allocDict.capacity)).psl) :=
  c2_amended_invariants Reachable.alloc

/-- C10: a NaN-float key is unequal to every key including itself, so
after inserting it the lookup with the identical key object returns
NULL, and a second insert with the same key object adds a fresh entry
(the count increases) instead of updating. -/
theorem c10_nan_key_lost {d d1 d2 : NDict} {i : Nat} {v v' : Obj}
    (hr : Reachable d)
    (h1 : dictSet d ⟨i, ObjData.float NDouble.nan⟩ v = some d1)
    (h2 : dictSet d1 ⟨i, ObjData.float NDouble.nan⟩ v' = some d2) :
    dict_get d1 ⟨i, ObjData.float NDouble.nan⟩ = none ∧
    d2.count = d1.count + 1 ∧
    ObjectsEqual ⟨i, ObjData.float NDouble.nan⟩
      ⟨i, ObjData.float NDouble.nan⟩ = false := by
  have invd := Reachable_inv hr
  obtain ⟨d1', e1, inv1, -, -, -⟩ :=
    dictSet_spec invd ⟨i, ObjData.float NDouble.nan⟩ v
  rw [h1] at e1
  cases e1
  obtain ⟨d2', e2, -, hcnt2, -, -⟩ :=
    dictSet_spec inv1 ⟨i, ObjData.float NDouble.nan⟩ v'
  rw [h2] at e2
  cases e2
  refine ⟨?_, ?_, rfl⟩
  · have hng := dictGetQ_notfound inv1
      (not_ContainsEq_nan d1.entries d1.capacity i)
    unfold dict_get
    rw [hng]
    rfl
  · rw [hcnt2, if_neg (not_ContainsEq_nan d1.entries d1.capacity i)]

/-- C10 witness: inserting a NaN key twice into a fresh dictionary. -/
theorem c10_nan_key_lost_witness :
    dict_get (dictSetD allocDict ⟨1, ObjData.float NDouble.nan⟩
      ⟨2, ObjData.int 0⟩) ⟨1, ObjData.float NDouble.nan⟩ = none ∧
    (dictSetD (dictSetD allocDict ⟨1, ObjData.float NDouble.nan⟩
      ⟨2, ObjData.int 0⟩) ⟨1, ObjData.float NDouble.nan⟩
      ⟨3, ObjData.int 1⟩).count =
      (dictSetD allocDict ⟨1, ObjData.float NDouble.nan⟩
        ⟨2, ObjData.int 0⟩).count + 1 ∧
    ObjectsEqual ⟨1, ObjData.float NDouble.nan⟩
      ⟨1, ObjData.float NDouble.nan⟩ = false := by
  have e1 : dictSet allocDict ⟨1, ObjData.float NDouble.nan⟩
      ⟨2, ObjData.int 0⟩ =
      some (dictSetD allocDict ⟨1, ObjData.float NDouble.nan⟩
        ⟨2, ObjData.int 0⟩) := rfl
  have e2 : dictSet (dictSetD allocDict ⟨1, ObjData.float NDouble.nan⟩
      ⟨2, ObjData.int 0⟩) ⟨1, ObjData.float NDouble.nan⟩
      ⟨3, ObjData.int 1⟩ =
      some (dictSetD (dictSetD allocDict ⟨1, ObjData.float NDouble.nan⟩
        ⟨2, ObjData.int 0⟩) ⟨1, ObjData.float NDouble.nan⟩
        ⟨3, ObjData.int 1⟩) := rfl
  exact c10_nan_key_lost Reachable.alloc e1 e2

end Nagini
